import Mathlib

/-!
Shallow embedding of the Markdown-on-paste add-on (`src/__init__.py`).

Strings are modelled as `List Char`; Python's `str` operations (strip,
split, replace, `html.escape`) and the fixed regular expressions of the
source are translated into executable Lean functions.  The regular
expressions of the source are simple enough that their Python (leftmost,
greedy, backtracking) match semantics can be reproduced by deterministic
scans built from `takeWhile` / `dropWhile`; each translation is noted at
its definition.  Whitespace is modelled as the six ASCII whitespace
characters recognised by Python's `\s` and `str.strip`.
-/

/-- Backtick character (Char.ofNat 96). -/
def tick : Char := Char.ofNat 96

/-- Whitespace test: the six ASCII characters matched by Python's regex
class and stripped by `str.strip()` on ASCII data. -/
def isPySpace (c : Char) : Bool :=
  c = ' ' ∨ c = '\t' ∨ c = '\n' ∨ c = '\r' ∨ c = Char.ofNat 11 ∨ c = Char.ofNat 12

/-- Python `str.lstrip()`. -/
def pyLstrip (l : List Char) : List Char := l.dropWhile isPySpace

/-- Python `str.rstrip()`. -/
def pyRstrip (l : List Char) : List Char := (l.reverse.dropWhile isPySpace).reverse

/-- Python `str.strip()`. -/
def pyStrip (l : List Char) : List Char := pyRstrip (pyLstrip l)

/-- Translation of one character under Python's `html.escape`: the source
applies it with `quote=True` (code-span text, link href and label, code
block language, raw code lines) or `quote=False` (paragraph text). -/
def escChar (quote : Bool) (c : Char) : List Char :=
  if c = '&' then "&amp;".data
  else if c = '<' then "&lt;".data
  else if c = '>' then "&gt;".data
  else if quote ∧ c = '"' then "&quot;".data
  else if quote ∧ c = '\'' then "&#x27;".data
  else [c]

/-- Python `html.escape(s, quote)`: its sequential `str.replace` calls
replace `&` first, so they amount to this single character-wise map. -/
def htmlEscape (quote : Bool) : List Char → List Char
  | [] => []
  | c :: rest => escChar quote c ++ htmlEscape quote rest

/-- Newline normalisation from `_basic_markdown_to_html`:
`text.replace("\r\n", "\n").replace("\r", "\n")` as a single scan
(the two global replaces rewrite each CRLF digram and each lone CR). -/
def normNL : List Char → List Char
  | [] => []
  | '\r' :: '\n' :: rest => '\n' :: normNL rest
  | '\r' :: rest => '\n' :: normNL rest
  | c :: rest => c :: normNL rest

/-- Python `str.split("\n")`. -/
def splitNL : List Char → List (List Char)
  | [] => [[]]
  | c :: rest =>
      if c = '\n' then [] :: splitNL rest
      else
        match splitNL rest with
        | h :: t => (c :: h) :: t
        | [] => [[c]]

/-- Python `"\n".join(lines)`. -/
def joinNL : List (List Char) → List Char
  | [] => []
  | [l] => l
  | l :: rest => l ++ '\n' :: joinNL rest

/-- Python `" ".join(lines)` (used by `flush_paragraph`). -/
def joinSpace : List (List Char) → List Char
  | [] => []
  | [l] => l
  | l :: rest => l ++ ' ' :: joinSpace rest

/-!
Inline processor (`_process_inline`).  The three extraction/escape steps
and the four emphasis passes are translated pass by pass.  In each regex
the repeated class `[^X]+` is greedy and the character after it is the
delimiter `X` itself, so shortening the greedy run can never help the
closing delimiter match: the run is exactly `takeWhile (· ≠ X)`.  On a
failed match attempt Python's scan advances one position, which the
recursive call on the tail reproduces.
-/

/-- Placeholder token `f"@@MD{n}@@"` from `store`. -/
def mkToken (n : Nat) : List Char := "@@MD".data ++ (Nat.repr n).data ++ "@@".data

/-- Pass 1, `` re.sub(r"`([^`]+)`", ...) ``: replace each code span with a
fresh token, recording `<code>` + escaped content + `</code>`.  Returns
the rewritten text, the next counter value and the placeholder list in
insertion order. -/
def codeSpanSub : Nat → List (List Char × List Char) → List Char →
    List Char × Nat × List (List Char × List Char)
  | cnt, ph, [] => ([], cnt, ph)
  | cnt, ph, c :: rest =>
      if c = tick then
        match h1 : rest.dropWhile (fun x => x ≠ tick), rest.takeWhile (fun x => x ≠ tick) with
        | _ :: tail, x :: xs =>
            let content := x :: xs
            let tok := mkToken cnt
            let val := "<code>".data ++ htmlEscape true content ++ "</code>".data
            let r := codeSpanSub (cnt + 1) (ph ++ [(tok, val)]) tail
            (tok ++ r.1, r.2)
        | _, _ =>
            let r := codeSpanSub cnt ph rest
            (c :: r.1, r.2)
      else
        let r := codeSpanSub cnt ph rest
        (c :: r.1, r.2)
termination_by _ _ l => l.length
decreasing_by
  all_goals simp_wf
  have hle : (rest.dropWhile (fun x => x ≠ tick)).length ≤ rest.length :=
    (List.dropWhile_sublist _).length_le
  rw [h1] at hle
  simp at hle
  omega

/-- Pass 2, `re.sub(r"\[([^\]]+)\]\(([^)]+)\)", ...)`: replace each link
with a fresh token, recording the rendered anchor.  The href is escaped
with `quote=True`; the label with `html.escape`'s default, which is also
`quote=True`. -/
def linkSub : Nat → List (List Char × List Char) → List Char →
    List Char × Nat × List (List Char × List Char)
  | cnt, ph, [] => ([], cnt, ph)
  | cnt, ph, c :: rest =>
      if c = '[' then
        match h1 : rest.dropWhile (fun x => x ≠ ']'), rest.takeWhile (fun x => x ≠ ']') with
        | ']' :: '(' :: rest2, lab0 :: lab1 =>
            match h2 : rest2.dropWhile (fun x => x ≠ ')'), rest2.takeWhile (fun x => x ≠ ')') with
            | ')' :: tail, url0 :: url1 =>
                let tok := mkToken cnt
                let val := "<a href=\"".data ++ htmlEscape true (url0 :: url1) ++ "\">".data ++
                           htmlEscape true (lab0 :: lab1) ++ "</a>".data
                let r := linkSub (cnt + 1) (ph ++ [(tok, val)]) tail
                (tok ++ r.1, r.2)
            | _, _ =>
                let r := linkSub cnt ph rest
                (c :: r.1, r.2)
        | _, _ =>
            let r := linkSub cnt ph rest
            (c :: r.1, r.2)
      else
        let r := linkSub cnt ph rest
        (c :: r.1, r.2)
termination_by _ _ l => l.length
decreasing_by
  all_goals simp_wf
  have hle1 : (rest.dropWhile (fun x => x ≠ ']')).length ≤ rest.length :=
    (List.dropWhile_sublist _).length_le
  have hle2 : (rest2.dropWhile (fun x => x ≠ ')')).length ≤ rest2.length :=
    (List.dropWhile_sublist _).length_le
  rw [h1] at hle1
  rw [h2] at hle2
  simp at hle1 hle2
  omega

/-- Passes `re.sub(r"\*\*([^*]+)\*\*", ...)` and `re.sub(r"__([^_]+)__", ...)`
with `d` the delimiter character; the replacement content is inserted
without further escaping. -/
def strongSub (d : Char) : List Char → List Char
  | c1 :: c2 :: rest =>
      if c1 = d ∧ c2 = d then
        match h1 : rest.dropWhile (fun x => x ≠ d), rest.takeWhile (fun x => x ≠ d) with
        | _ :: e2 :: tail, x :: xs =>
            if e2 = d then
              "<strong>".data ++ (x :: xs) ++ "</strong>".data ++ strongSub d tail
            else c1 :: strongSub d (c2 :: rest)
        | _, _ => c1 :: strongSub d (c2 :: rest)
      else c1 :: strongSub d (c2 :: rest)
  | l => l
termination_by l => l.length
decreasing_by
  all_goals simp_wf
  have hle : (rest.dropWhile (fun x => x ≠ d)).length ≤ rest.length :=
    (List.dropWhile_sublist _).length_le
  rw [h1] at hle
  simp at hle
  omega

/-- Passes `re.sub(r"(?<!\*)\*([^*]+)\*(?!\*)", ...)` and the symmetric
underscore pass.  `prev` is the character of the original string just
before the scan position, consulted by the lookbehind; the lookahead
inspects the character after the closing delimiter. -/
def emSub (d : Char) : Option Char → List Char → List Char
  | _, [] => []
  | prev, c :: rest =>
      if c = d ∧ prev ≠ some d then
        match h1 : rest.dropWhile (fun x => x ≠ d), rest.takeWhile (fun x => x ≠ d) with
        | _ :: tail, x :: xs =>
            if tail.head? ≠ some d then
              "<em>".data ++ (x :: xs) ++ "</em>".data ++ emSub d (some d) tail
            else c :: emSub d (some c) rest
        | _, _ => c :: emSub d (some c) rest
      else c :: emSub d (some c) rest
termination_by _ l => l.length
decreasing_by
  all_goals simp_wf
  have hle : (rest.dropWhile (fun x => x ≠ d)).length ≤ rest.length :=
    (List.dropWhile_sublist _).length_le
  rw [h1] at hle
  simp at hle
  omega

/-- Python `str.replace(pat, repl)`: replace every occurrence left to
right, scanning past each replacement. -/
def replaceList (pat repl : List Char) : List Char → List Char
  | [] => []
  | c :: rest =>
      if h : pat ≠ [] ∧ pat.isPrefixOf (c :: rest) then
        repl ++ replaceList pat repl ((c :: rest).drop pat.length)
      else c :: replaceList pat repl rest
termination_by l => l.length
decreasing_by
  all_goals simp_wf
  have hp : 1 ≤ pat.length := by
    cases pat with
    | nil => exact absurd rfl h.1
    | cons a as => simp
  omega

/-- Placeholder restoration: for every stored token in insertion order,
replace first its `html.escape`d form and then the raw token by the
stored value (source lines 224-226). -/
def restoreAll (ph : List (List Char × List Char)) (l : List Char) : List Char :=
  ph.foldl (fun acc p => replaceList p.1 p.2 (replaceList (htmlEscape true p.1) p.2 acc)) l

/-- Translation of `_process_inline`: code spans, then links (sharing one
counter), then entity escaping with `quote=False`, then the four emphasis
passes, then placeholder restoration. -/
def processInline (text : List Char) : List Char :=
  let r1 := codeSpanSub 0 [] text
  let r2 := linkSub r1.2.1 r1.2.2 r1.1
  let escaped := htmlEscape false r2.1
  let e1 := strongSub '*' escaped
  let e2 := strongSub '_' e1
  let e3 := emSub '*' none e2
  let e4 := emSub '_' none e3
  restoreAll r2.2.2 e4

/-!
Classifier (`_looks_like_markdown`).  The eight `MARKDOWN_CLUES` patterns
are searched with `re.search(..., re.MULTILINE)`; a pattern anchored by
`^` is therefore tried at the start of the text and after every `"\n"`,
an unanchored pattern at every position.
-/

/-- Suffixes of the text that start right after a newline; together with
the text itself these are the candidate match positions for `^` in
`re.MULTILINE` mode. -/
def tailsAfterNL : List Char → List (List Char)
  | [] => []
  | c :: rest => if c = '\n' then rest :: tailsAfterNL rest else tailsAfterNL rest

/-- Multiline search of a line-start-anchored pattern. -/
def anyLineStart (p : List Char → Bool) (l : List Char) : Bool :=
  p l || (tailsAfterNL l).any p

/-- Clue `^#{1,6}\s`: one to six hashes at line start, then whitespace.
With seven or more hashes every backtracking choice of `#{1,6}` leaves a
hash under `\s`, so the greedy hash run must have length 1..6. -/
def clueHeadingAt (l : List Char) : Bool :=
  let h := l.takeWhile (fun c => c = '#')
  decide (1 ≤ h.length) && decide (h.length ≤ 6) &&
    (match l.drop h.length with
     | c :: _ => isPySpace c
     | [] => false)

/-- Clue `^\s{0,3}[-*+]\s`: the marker is not whitespace, so the greedy
whitespace run before it is exact and must have length at most 3. -/
def clueUnorderedAt (l : List Char) : Bool :=
  let w := l.takeWhile isPySpace
  decide (w.length ≤ 3) &&
    (match l.drop w.length with
     | c :: d :: _ => (c = '-' || c = '*' || c = '+') && isPySpace d
     | _ => false)

/-- Clue `^\s{0,3}\d+[.)]\s`. -/
def clueOrderedAt (l : List Char) : Bool :=
  let w := l.takeWhile isPySpace
  let rest := l.drop w.length
  let d := rest.takeWhile Char.isDigit
  decide (w.length ≤ 3) && decide (1 ≤ d.length) &&
    (match rest.drop d.length with
     | c :: e :: _ => (c = '.' || c = ')') && isPySpace e
     | _ => false)

/-- Clue `^\s{0,3}>\s`. -/
def clueQuoteAt (l : List Char) : Bool :=
  let w := l.takeWhile isPySpace
  decide (w.length ≤ 3) &&
    (match l.drop w.length with
     | c :: d :: _ => (c = '>') && isPySpace d
     | _ => false)

/-- Clue `` `{1,3}[^`]+`{1,3} `` searched anywhere: it succeeds exactly
when a backtick is followed, after at least one intervening
non-backtick character, by another backtick.  The scan records whether
an opening backtick was seen (`seenTick`) and whether non-backtick
content followed it (`hasContent`). -/
def clueCodeAux (seenTick hasContent : Bool) : List Char → Bool
  | [] => false
  | c :: rest =>
      if c = tick then
        (seenTick && hasContent) || clueCodeAux true false rest
      else
        clueCodeAux seenTick (hasContent || seenTick) rest

/-- Clue `\[[^\]]+\]\([^)]+\)` searched anywhere.  At an opening bracket
the greedy `[^\]]+` run is exact (shortening it would put `\]` on a
non-`]` character), and likewise for `[^)]+`; on failure the regex engine
advances one position, which the recursive call on the tail reproduces. -/
def clueLink : List Char → Bool
  | [] => false
  | c :: rest =>
      if c = '[' then
        match rest.dropWhile (fun x => x ≠ ']'), rest.takeWhile (fun x => x ≠ ']') with
        | ']' :: '(' :: rest2, _ :: _ =>
            match rest2.dropWhile (fun x => x ≠ ')'), rest2.takeWhile (fun x => x ≠ ')') with
            | ')' :: _, _ :: _ => true
            | _, _ => clueLink rest
        | _, _ => clueLink rest
      else clueLink rest

/-- Clues `\*\*[^*]+\*\*` and `__[^_]+__` searched anywhere, with `d` the
delimiter character. -/
def clueBold (d : Char) : List Char → Bool
  | c1 :: c2 :: rest =>
      if c1 = d ∧ c2 = d then
        match rest.dropWhile (fun x => x ≠ d), rest.takeWhile (fun x => x ≠ d) with
        | _ :: e2 :: _, _ :: _ =>
            if e2 = d then true else clueBold d (c2 :: rest)
        | _, _ => clueBold d (c2 :: rest)
      else clueBold d (c2 :: rest)
  | _ => false

/-- Translation of `_looks_like_markdown`: strip, reject empty text,
reject short single-line text, then try the eight clues in order. -/
def looksLikeMarkdown (text : String) : Bool :=
  let stripped := pyStrip text.data
  if stripped.isEmpty then false
  else if ¬ stripped.contains '\n' ∧ stripped.length < 6 then false
  else
    anyLineStart clueHeadingAt stripped ||
    anyLineStart clueUnorderedAt stripped ||
    anyLineStart clueOrderedAt stripped ||
    clueCodeAux false false stripped ||
    clueLink stripped ||
    clueBold '*' stripped ||
    clueBold '_' stripped ||
    anyLineStart clueQuoteAt stripped

/-!
Block parser (`_basic_markdown_to_html`).  A fold over the normalised,
split line sequence carrying the mutable state of the source: the output
line list, the code-block flag and language, the list stack and the
paragraph buffer.  The Python list stack pushes and pops at the end; the
Lean list holds the most recently opened list at its head.
-/

/-- Mutable state of `_basic_markdown_to_html`. -/
structure MDState where
  htmlLines : List (List Char)
  inCode : Bool
  codeLang : List Char
  listStack : List (List Char)
  paragraphLines : List (List Char)
deriving DecidableEq

/-- Helper `close_lists`: pop every entry, innermost first, emitting its
closing tag. -/
def closeLists (s : MDState) : MDState :=
  { s with
    listStack := []
    htmlLines := s.htmlLines ++ s.listStack.map (fun t => "</".data ++ t ++ ['>']) }

/-- Helper `flush_paragraph`: join the buffered lines with single spaces,
strip, and emit a paragraph element if non-empty; always clear the
buffer. -/
def flushParagraph (s : MDState) : MDState :=
  if s.paragraphLines.isEmpty then s
  else
    let paragraph := pyStrip (joinSpace (s.paragraphLines.map pyStrip))
    if paragraph.isEmpty then { s with paragraphLines := [] }
    else
      { s with
        paragraphLines := []
        htmlLines := s.htmlLines ++ ["<p>".data ++ processInline paragraph ++ "</p>".data] }

/-- Heading pattern `^(#{1,6})\s+(.*)`: with seven or more hashes no
backtracking choice of `#{1,6}` can put `\s` on a hash, so the greedy
hash run must have length 1..6; `\s+` then takes the maximal whitespace
run and group 2 is the remainder of the line. -/
def headingMatch (l : List Char) : Option (Nat × List Char) :=
  let h := l.takeWhile (fun c => c = '#')
  if 1 ≤ h.length ∧ h.length ≤ 6 then
    match l.drop h.length with
    | c :: rest => if isPySpace c then some (h.length, (c :: rest).dropWhile isPySpace) else none
    | [] => none
  else none

/-- Blockquote pattern `^>\s?(.*)`: optionally consume one whitespace
character after the marker. -/
def blockquoteMatch (l : List Char) : Option (List Char) :=
  match l with
  | '>' :: rest =>
      match rest with
      | c :: rest2 => if isPySpace c then some rest2 else some rest
      | [] => some []
  | _ => none

/-- Unordered item pattern `^[-*+]\s+(.*)`. -/
def unorderedMatch (l : List Char) : Option (List Char) :=
  match l with
  | c :: rest =>
      if c = '-' ∨ c = '*' ∨ c = '+' then
        if 1 ≤ (rest.takeWhile isPySpace).length then some (rest.dropWhile isPySpace) else none
      else none
  | [] => none

/-- Ordered item pattern `^\d+[.)]\s+(.*)`. -/
def orderedMatch (l : List Char) : Option (List Char) :=
  let d := l.takeWhile Char.isDigit
  if 1 ≤ d.length then
    match l.drop d.length with
    | c :: rest =>
        if c = '.' ∨ c = ')' then
          if 1 ≤ (rest.takeWhile isPySpace).length then some (rest.dropWhile isPySpace) else none
        else none
    | [] => none
  else none

/-- Processing of one raw line of `_basic_markdown_to_html`, in the
priority order of the source: fence toggle, code-mode passthrough, blank
line, horizontal rule, heading, blockquote, unordered item, ordered item,
paragraph continuation. -/
def processLine (s : MDState) (rawLine : List Char) : MDState :=
  let line := pyRstrip rawLine
  let stripped := pyLstrip line
  if "```".data.isPrefixOf stripped then
    if s.inCode then
      { s with
        htmlLines := s.htmlLines ++ ["</code></pre>".data]
        inCode := false
        codeLang := [] }
    else
      let s1 := closeLists (flushParagraph s)
      let lang := pyStrip (stripped.drop 3)
      let classAttr :=
        if lang.isEmpty then []
        else " class=\"language-".data ++ htmlEscape true lang ++ "\"".data
      { s1 with
        inCode := true
        codeLang := lang
        htmlLines := s1.htmlLines ++ ["<pre><code".data ++ classAttr ++ ['>']] }
  else if s.inCode then
    { s with htmlLines := s.htmlLines ++ [htmlEscape true rawLine] }
  else if stripped.isEmpty then
    closeLists (flushParagraph s)
  else if stripped = "---".data ∨ stripped = "***".data ∨ stripped = "___".data then
    let s1 := closeLists (flushParagraph s)
    { s1 with htmlLines := s1.htmlLines ++ ["<hr />".data] }
  else
    match headingMatch stripped with
    | some (n, content) =>
        let s1 := closeLists (flushParagraph s)
        let level := min n 6
        { s1 with htmlLines := s1.htmlLines ++
            ["<h".data ++ (Nat.repr level).data ++ ['>'] ++
             processInline (pyStrip content) ++
             "</h".data ++ (Nat.repr level).data ++ ['>']] }
    | none =>
    match blockquoteMatch stripped with
    | some content =>
        let s1 := closeLists (flushParagraph s)
        { s1 with htmlLines := s1.htmlLines ++
            ["<blockquote>".data ++ processInline content ++ "</blockquote>".data] }
    | none =>
    match unorderedMatch stripped with
    | some content =>
        let s1 := flushParagraph s
        let s2 :=
          if s1.listStack.head? ≠ some "ul".data then
            let s1c := closeLists s1
            { s1c with
              listStack := "ul".data :: s1c.listStack
              htmlLines := s1c.htmlLines ++ ["<ul>".data] }
          else s1
        { s2 with htmlLines := s2.htmlLines ++
            ["<li>".data ++ processInline (pyStrip content) ++ "</li>".data] }
    | none =>
    match orderedMatch stripped with
    | some content =>
        let s1 := flushParagraph s
        let s2 :=
          if s1.listStack.head? ≠ some "ol".data then
            let s1c := closeLists s1
            { s1c with
              listStack := "ol".data :: s1c.listStack
              htmlLines := s1c.htmlLines ++ ["<ol>".data] }
          else s1
        { s2 with htmlLines := s2.htmlLines ++
            ["<li>".data ++ processInline (pyStrip content) ++ "</li>".data] }
    | none =>
        { s with paragraphLines := s.paragraphLines ++ [stripped] }

/-- Initial state of the converter. -/
def initState : MDState := ⟨[], false, [], [], []⟩

/-- Output line list of `_basic_markdown_to_html`: fold over the lines,
then flush the paragraph, close open lists and force-close an
unterminated code block. -/
def basicMarkdownToHtmlLines (text : List Char) : List (List Char) :=
  let lines := splitNL (normNL text)
  let s := lines.foldl processLine initState
  let s1 := closeLists (flushParagraph s)
  let s2 :=
    if s1.inCode then { s1 with htmlLines := s1.htmlLines ++ ["</code></pre>".data] }
    else s1
  s2.htmlLines

/-- Translation of `_basic_markdown_to_html`: the joined output lines. -/
def basicMarkdownToHtml (text : String) : String :=
  String.mk (joinNL (basicMarkdownToHtmlLines text.data))

/-!
Conversion strategy (`_convert_markdown`) and the editor boundary
(`_maybe_convert_markdown`).  The optional rich `markdown` package is
external to the repository; it is modelled as an optional engine
parameter whose result is `none` when the engine raises.
-/

/-- Translation of `_convert_markdown`, with `engine` standing for the
optional `markdown.markdown(...)` call: `none` for an absent package,
`some f` with `f text = none` for a raised exception. -/
def convertMarkdown (engine : Option (String → Option String)) (text : String) : String :=
  match engine with
  | some f =>
      match f text with
      | some result => result
      | none => basicMarkdownToHtml text
  | none => basicMarkdownToHtml text

/-- Payload bundle of the editor boundary: an optional rich-formatted
(HTML) representation and an optional plain-text representation, as
carried by `QMimeData`. -/
structure MimePayload where
  htmlData : Option String
  textData : Option String
deriving DecidableEq

/-- Translation of `_maybe_convert_markdown` (the `extended` and
`dropEvent` flags of the hook are unused by the source and omitted).
`mime.hasHtml()` and `mime.hasText()` are the `isSome` tests and
`mime.text()` reads the plain text. -/
def maybeConvertMarkdown (engine : Option (String → Option String))
    (mime : Option MimePayload) (internal : Bool) : Option MimePayload :=
  if internal then mime
  else
    match mime with
    | none => none
    | some m =>
        if m.htmlData.isSome then some m
        else if ¬ m.textData.isSome then some m
        else
          let text := m.textData.getD ""
          if ¬ looksLikeMarkdown text then some m
          else
            let htmlText := convertMarkdown engine text
            if (pyStrip htmlText.data).isEmpty then some m
            else some ⟨some htmlText, some text⟩

/-!
Observation helpers used by the statements: substring-occurrence
counting and recognisers for the code-block markers among the emitted
output lines.
-/

/-- Number of positions of `l` at which the pattern `pat` occurs. -/
def countOcc (pat : List Char) : List Char → Nat
  | [] => 0
  | c :: rest => (if pat.isPrefixOf (c :: rest) then 1 else 0) + countOcc pat rest

/-- Recogniser for an emitted opening code-block marker
`<pre><code...>`. -/
def isCodeOpenTag (e : List Char) : Bool := "<pre><code".data.isPrefixOf e

/-- Recogniser for the emitted closing code-block marker. -/
def isCodeCloseTag (e : List Char) : Bool := e = "</code></pre>".data

/-!
General lemmas about `takeWhile` / `dropWhile` scans, used to evaluate
the regex translations on structured inputs.
-/

theorem takeWhile_append_stop {p : Char → Bool} {A B : List Char} {x : Char}
    (hA : ∀ a ∈ A, p a = true) (hx : p x = false) :
    (A ++ x :: B).takeWhile p = A := by
  induction A with
  | nil => simp [List.takeWhile, hx]
  | cons a A ih =>
      have ha : p a = true := hA a (by simp)
      simp only [List.cons_append, List.takeWhile_cons, ha]
      rw [ih (fun b hb => hA b (by simp [hb]))]
      simp

theorem dropWhile_append_stop {p : Char → Bool} {A B : List Char} {x : Char}
    (hA : ∀ a ∈ A, p a = true) (hx : p x = false) :
    (A ++ x :: B).dropWhile p = x :: B := by
  induction A with
  | nil => simp [List.dropWhile, hx]
  | cons a A ih =>
      have ha : p a = true := hA a (by simp)
      simp only [List.cons_append, List.dropWhile_cons, ha]
      exact ih (fun b hb => hA b (by simp [hb]))

theorem dropWhile_append_head {p : Char → Bool} {A B : List Char} {x : Char}
    (hx : p x = false) :
    (A ++ x :: B).dropWhile p = A.dropWhile p ++ x :: B := by
  induction A with
  | nil => simp [List.dropWhile, hx]
  | cons a A ih =>
      by_cases ha : p a = true
      · simp only [List.cons_append, List.dropWhile_cons, ha]
        exact ih
      · rw [Bool.not_eq_true] at ha
        simp [List.dropWhile_cons, ha]

/-!
Claims C6 and C7: the conversion strategy fallback and the editor
boundary contract.
-/

/-- C6: for every input text, if the optional rich Markdown engine is
unavailable or raises, `_convert_markdown` returns exactly the output of
the built-in `_basic_markdown_to_html` for that same input (the
embedding is a total function, so the translated `convert` cannot
raise). -/
theorem C6_fallback_equals_basic (engine : Option (String → Option String)) (text : String)
    (h : engine = none ∨ ∃ f, engine = some f ∧ f text = none) :
    convertMarkdown engine text = basicMarkdownToHtml text := by
  rcases h with h | ⟨f, rfl, hf⟩
  · rw [h]
    rfl
  · simp [convertMarkdown, hf]

/-- Witness for C6 at a concrete input: the engine is absent. -/
theorem C6_fallback_equals_basic_witness :
    convertMarkdown none "# x" = basicMarkdownToHtml "# x" :=
  C6_fallback_equals_basic none "# x" (Or.inl rfl)

/-- C7: at the editor boundary, for a non-internal bundle with no rich
representation whose plain text passes the classifier, an empty or
whitespace-only conversion result returns the original bundle unchanged,
and otherwise the returned bundle carries the generated HTML as its rich
representation and the original plain text unchanged. -/
theorem C7_boundary_contract (engine : Option (String → Option String))
    (m : MimePayload) (t : String)
    (hhtml : m.htmlData = none) (htext : m.textData = some t)
    (hcls : looksLikeMarkdown t = true) :
    maybeConvertMarkdown engine (some m) false =
      (if (pyStrip (convertMarkdown engine t).data).isEmpty then some m
       else some ⟨some (convertMarkdown engine t), some t⟩) := by
  simp [maybeConvertMarkdown, hhtml, htext, hcls]

/-- Witness for C7 at a concrete engine and bundle. -/
theorem C7_boundary_contract_witness :
    maybeConvertMarkdown (some fun _ => some "<h1>T</h1>") (some ⟨none, some "# Title"⟩) false =
      (if (pyStrip (convertMarkdown (some fun _ => some "<h1>T</h1>") "# Title").data).isEmpty
       then some ⟨none, some "# Title"⟩
       else some ⟨some (convertMarkdown (some fun _ => some "<h1>T</h1>") "# Title"),
                  some "# Title"⟩) :=
  C7_boundary_contract _ _ _ rfl rfl (by decide)

/-!
Field lemmas for the block-parser helpers and branch-dispatch lemmas for
`processLine`: each dispatch lemma evaluates `processLine` on a line once
the tests deciding its branch are known.
-/

theorem closeLists_listStack (s : MDState) : (closeLists s).listStack = [] := rfl

theorem closeLists_inCode (s : MDState) : (closeLists s).inCode = s.inCode := rfl

theorem closeLists_paragraphLines (s : MDState) :
    (closeLists s).paragraphLines = s.paragraphLines := rfl

theorem flushParagraph_listStack (s : MDState) :
    (flushParagraph s).listStack = s.listStack := by
  unfold flushParagraph
  split
  · rfl
  · dsimp only
    split <;> rfl

theorem flushParagraph_inCode (s : MDState) : (flushParagraph s).inCode = s.inCode := by
  unfold flushParagraph
  split
  · rfl
  · dsimp only
    split <;> rfl

theorem flushParagraph_paragraphLines (s : MDState) :
    (flushParagraph s).paragraphLines = [] ∨ (flushParagraph s).paragraphLines = s.paragraphLines := by
  unfold flushParagraph
  split
  · exact Or.inr rfl
  · dsimp only
    split <;> exact Or.inl rfl

theorem flushParagraph_of_empty (s : MDState) (h : s.paragraphLines = []) :
    flushParagraph s = s := by
  unfold flushParagraph
  simp [h]

theorem processLine_paragraph (s : MDState) (raw : List Char)
    (hcode : s.inCode = false)
    (h1 : "```".data.isPrefixOf (pyLstrip (pyRstrip raw)) = false)
    (h2 : (pyLstrip (pyRstrip raw)).isEmpty = false)
    (h3 : ¬(pyLstrip (pyRstrip raw) = "---".data ∨ pyLstrip (pyRstrip raw) = "***".data ∨
            pyLstrip (pyRstrip raw) = "___".data))
    (h4 : headingMatch (pyLstrip (pyRstrip raw)) = none)
    (h5 : blockquoteMatch (pyLstrip (pyRstrip raw)) = none)
    (h6 : unorderedMatch (pyLstrip (pyRstrip raw)) = none)
    (h7 : orderedMatch (pyLstrip (pyRstrip raw)) = none) :
    processLine s raw =
      { s with paragraphLines := s.paragraphLines ++ [pyLstrip (pyRstrip raw)] } := by
  unfold processLine
  simp [hcode, h1, h2, h3, h4, h5, h6, h7]

theorem processLine_fence_open (s : MDState) (raw : List Char)
    (hcode : s.inCode = false)
    (h1 : "```".data.isPrefixOf (pyLstrip (pyRstrip raw)) = true) :
    processLine s raw =
      (let s1 := closeLists (flushParagraph s)
       let lang := pyStrip ((pyLstrip (pyRstrip raw)).drop 3)
       let classAttr :=
         if lang.isEmpty then []
         else " class=\"language-".data ++ htmlEscape true lang ++ "\"".data
       { s1 with
         inCode := true
         codeLang := lang
         htmlLines := s1.htmlLines ++ ["<pre><code".data ++ classAttr ++ ['>']] }) := by
  unfold processLine
  simp [hcode, h1]

theorem processLine_fence_close (s : MDState) (raw : List Char)
    (hcode : s.inCode = true)
    (h1 : "```".data.isPrefixOf (pyLstrip (pyRstrip raw)) = true) :
    processLine s raw =
      { s with
        htmlLines := s.htmlLines ++ ["</code></pre>".data]
        inCode := false
        codeLang := [] } := by
  unfold processLine
  simp [hcode, h1]

theorem processLine_inCode (s : MDState) (raw : List Char)
    (hcode : s.inCode = true)
    (h1 : "```".data.isPrefixOf (pyLstrip (pyRstrip raw)) = false) :
    processLine s raw = { s with htmlLines := s.htmlLines ++ [htmlEscape true raw] } := by
  unfold processLine
  simp [hcode, h1]

theorem processLine_blank (s : MDState) (raw : List Char)
    (hcode : s.inCode = false)
    (h2 : (pyLstrip (pyRstrip raw)).isEmpty = true) :
    processLine s raw = closeLists (flushParagraph s) := by
  unfold processLine
  have h1 : "```".data.isPrefixOf (pyLstrip (pyRstrip raw)) = false := by
    cases hp : pyLstrip (pyRstrip raw) with
    | nil => rfl
    | cons a l => rw [hp] at h2; simp at h2
  simp [hcode, h1, h2]

theorem processLine_unordered (s : MDState) (raw content : List Char)
    (hcode : s.inCode = false)
    (h1 : "```".data.isPrefixOf (pyLstrip (pyRstrip raw)) = false)
    (h2 : (pyLstrip (pyRstrip raw)).isEmpty = false)
    (h3 : ¬(pyLstrip (pyRstrip raw) = "---".data ∨ pyLstrip (pyRstrip raw) = "***".data ∨
            pyLstrip (pyRstrip raw) = "___".data))
    (h4 : headingMatch (pyLstrip (pyRstrip raw)) = none)
    (h5 : blockquoteMatch (pyLstrip (pyRstrip raw)) = none)
    (h6 : unorderedMatch (pyLstrip (pyRstrip raw)) = some content) :
    processLine s raw =
      (let s1 := flushParagraph s
       let s2 :=
         if s1.listStack.head? ≠ some "ul".data then
           let s1c := closeLists s1
           { s1c with
             listStack := "ul".data :: s1c.listStack
             htmlLines := s1c.htmlLines ++ ["<ul>".data] }
         else s1
       { s2 with htmlLines := s2.htmlLines ++
           ["<li>".data ++ processInline (pyStrip content) ++ "</li>".data] }) := by
  unfold processLine
  simp [hcode, h1, h2, h3, h4, h5, h6]

theorem processLine_ordered (s : MDState) (raw content : List Char)
    (hcode : s.inCode = false)
    (h1 : "```".data.isPrefixOf (pyLstrip (pyRstrip raw)) = false)
    (h2 : (pyLstrip (pyRstrip raw)).isEmpty = false)
    (h3 : ¬(pyLstrip (pyRstrip raw) = "---".data ∨ pyLstrip (pyRstrip raw) = "***".data ∨
            pyLstrip (pyRstrip raw) = "___".data))
    (h4 : headingMatch (pyLstrip (pyRstrip raw)) = none)
    (h5 : blockquoteMatch (pyLstrip (pyRstrip raw)) = none)
    (h6 : unorderedMatch (pyLstrip (pyRstrip raw)) = none)
    (h7 : orderedMatch (pyLstrip (pyRstrip raw)) = some content) :
    processLine s raw =
      (let s1 := flushParagraph s
       let s2 :=
         if s1.listStack.head? ≠ some "ol".data then
           let s1c := closeLists s1
           { s1c with
             listStack := "ol".data :: s1c.listStack
             htmlLines := s1c.htmlLines ++ ["<ol>".data] }
         else s1
       { s2 with htmlLines := s2.htmlLines ++
           ["<li>".data ++ processInline (pyStrip content) ++ "</li>".data] }) := by
  unfold processLine
  simp [hcode, h1, h2, h3, h4, h5, h6, h7]

/-!
Claim C9: the list stack of the block parser never holds more than one
entry.
-/

theorem processLine_stack_le (s : MDState) (l : List Char) (h : s.listStack.length ≤ 1) :
    (processLine s l).listStack.length ≤ 1 := by
  unfold processLine
  dsimp only
  repeat' split
  all_goals simp_all [closeLists_listStack, flushParagraph_listStack]

/-- C9: at every step of a `_basic_markdown_to_html` run (after any
prefix of the processed line sequence), the list stack holds at most one
entry, since every push is preceded by emptying the stack; opened lists
are therefore never nested. -/
theorem C9_list_stack_at_most_one (text : String) (n : Nat) :
    (((splitNL (normNL text.data)).take n).foldl processLine initState).listStack.length ≤ 1 := by
  have key : ∀ (L : List (List Char)) (s : MDState), s.listStack.length ≤ 1 →
      (L.foldl processLine s).listStack.length ≤ 1 := by
    intro L
    induction L with
    | nil => exact fun s hs => hs
    | cons l L ih => exact fun s hs => ih _ (processLine_stack_le s l hs)
  exact key _ _ (by simp [initState])

/-!
Lemmas about `pyRstrip` / `pyLstrip` fixpoints, and claim C10.
-/

theorem dropWhile_self_head {p : Char → Bool} {a : Char} {t : List Char}
    (h : (a :: t).dropWhile p = a :: t) : p a = false := by
  by_contra hcon
  rw [Bool.not_eq_false] at hcon
  rw [List.dropWhile_cons, if_pos hcon] at h
  have hle : (t.dropWhile p).length ≤ t.length := (List.dropWhile_sublist _).length_le
  rw [h] at hle
  simp at hle

theorem rev_dropWhile_of_rstrip_self {c : List Char} (hc : pyRstrip c = c) :
    c.reverse.dropWhile isPySpace = c.reverse := by
  have h := congrArg List.reverse hc
  simpa [pyRstrip] using h

theorem pyRstrip_append {A B : List Char} (hB : pyRstrip B = B) (hne : B ≠ []) :
    pyRstrip (A ++ B) = A ++ B := by
  have hdw := rev_dropWhile_of_rstrip_self hB
  cases hr : B.reverse with
  | nil =>
      exact absurd (by simpa using congrArg List.reverse hr) hne
  | cons y Y =>
      rw [hr] at hdw
      have hy : isPySpace y = false := dropWhile_self_head hdw
      unfold pyRstrip
      rw [List.reverse_append, hr]
      have hstep : ((y :: Y) ++ A.reverse).dropWhile isPySpace = (y :: Y) ++ A.reverse := by
        simp [List.dropWhile_cons, hy]
      rw [hstep, ← hr, ← List.reverse_append]
      simp

theorem isPySpace_hash : isPySpace '#' = false := by decide

theorem pyLstrip_cons_of {a : Char} {l : List Char} (ha : isPySpace a = false) :
    pyLstrip (a :: l) = a :: l := by
  simp [pyLstrip, List.dropWhile_cons, ha]

theorem replicate_hash_cons {k : Nat} (hk : 1 ≤ k) :
    ∃ m, k = m + 1 ∧ List.replicate k '#' = '#' :: List.replicate m '#' := by
  obtain ⟨m, rfl⟩ : ∃ m, k = m + 1 := ⟨k - 1, by omega⟩
  exact ⟨m, rfl, by rw [List.replicate_succ]⟩

theorem takeWhile_hash_replicate (k : Nat) (c : List Char) :
    (List.replicate k '#' ++ ' ' :: c).takeWhile (fun x => x = '#') = List.replicate k '#' := by
  apply takeWhile_append_stop
  · intro a ha
    have := List.eq_of_mem_replicate ha
    simp [this]
  · decide

/-- C10: a line of seven or more hashes followed by whitespace and
content is not matched as a heading at any level: `processLine` emits no
element for it (outside code mode) and appends it to the paragraph
buffer as ordinary paragraph content. -/
theorem C10_overlong_heading_is_paragraph (s : MDState) (k : Nat) (c : List Char)
    (hcode : s.inCode = false) (hk : 7 ≤ k)
    (hc : pyRstrip c = c) (hne : c ≠ []) :
    processLine s (List.replicate k '#' ++ ' ' :: c) =
      { s with paragraphLines :=
          s.paragraphLines ++ [List.replicate k '#' ++ ' ' :: c] } := by
  obtain ⟨m, hkm, hrep⟩ := replicate_hash_cons (k := k) (by omega)
  have hLr : pyRstrip (List.replicate k '#' ++ ' ' :: c) =
      List.replicate k '#' ++ ' ' :: c := by
    have h1 : List.replicate k '#' ++ ' ' :: c = (List.replicate k '#' ++ [' ']) ++ c := by
      simp
    rw [h1, pyRstrip_append hc hne, ← h1]
  have hLl : pyLstrip (List.replicate k '#' ++ ' ' :: c) =
      List.replicate k '#' ++ ' ' :: c := by
    rw [hrep, List.cons_append]
    exact pyLstrip_cons_of isPySpace_hash
  have hLL : pyLstrip (pyRstrip (List.replicate k '#' ++ ' ' :: c)) =
      List.replicate k '#' ++ ' ' :: c := by rw [hLr, hLl]
  have hcons : List.replicate k '#' ++ ' ' :: c = '#' :: (List.replicate m '#' ++ ' ' :: c) := by
    rw [hrep, List.cons_append]
  have h1 : "```".data.isPrefixOf
      (pyLstrip (pyRstrip (List.replicate k '#' ++ ' ' :: c))) = false := by
    rw [hLL, hcons]
    simp [List.isPrefixOf]
  have h2 : (pyLstrip (pyRstrip (List.replicate k '#' ++ ' ' :: c))).isEmpty = false := by
    rw [hLL, hcons]
    simp
  have h3 : ¬(pyLstrip (pyRstrip (List.replicate k '#' ++ ' ' :: c)) = "---".data ∨
      pyLstrip (pyRstrip (List.replicate k '#' ++ ' ' :: c)) = "***".data ∨
      pyLstrip (pyRstrip (List.replicate k '#' ++ ' ' :: c)) = "___".data) := by
    rw [hLL, hcons]
    intro h
    rcases h with h | h | h <;> (injection h with h1 _; exact absurd h1 (by decide))
  have h4 : headingMatch (pyLstrip (pyRstrip (List.replicate k '#' ++ ' ' :: c))) = none := by
    rw [hLL]
    unfold headingMatch
    dsimp only
    rw [takeWhile_hash_replicate, List.length_replicate]
    rw [if_neg (by omega)]
  have h5 : blockquoteMatch (pyLstrip (pyRstrip (List.replicate k '#' ++ ' ' :: c))) = none := by
    rw [hLL, hcons]
    rfl
  have h6 : unorderedMatch (pyLstrip (pyRstrip (List.replicate k '#' ++ ' ' :: c))) = none := by
    rw [hLL, hcons]
    simp [unorderedMatch]
  have h7 : orderedMatch (pyLstrip (pyRstrip (List.replicate k '#' ++ ' ' :: c))) = none := by
    rw [hLL, hcons]
    simp [orderedMatch, List.takeWhile_cons]
  have hmain := processLine_paragraph s _ hcode h1 h2 h3 h4 h5 h6 h7
  rw [hLL] at hmain
  exact hmain

/-- Witness for C10 at a concrete state and line of seven hashes. -/
theorem C10_overlong_heading_is_paragraph_witness :
    initState.inCode = false ∧ 7 ≤ 7 ∧ pyRstrip "x".data = "x".data ∧ "x".data ≠ [] ∧
    processLine initState (List.replicate 7 '#' ++ ' ' :: "x".data) =
      { initState with paragraphLines :=
          initState.paragraphLines ++ [List.replicate 7 '#' ++ ' ' :: "x".data] } :=
  ⟨rfl, by omega, by decide, by decide,
   C10_overlong_heading_is_paragraph initState 7 "x".data rfl (by omega) (by decide) (by decide)⟩

/-!
Claim C2: the heading clue of the classifier, and the short-single-line
guard that defeats the claim as stated.
-/

theorem pyLstrip_newline_suffix (A0 : List Char) :
    pyLstrip (A0 ++ ['\n']) = [] ∨ ∃ B, pyLstrip (A0 ++ ['\n']) = B ++ ['\n'] := by
  induction A0 with
  | nil => left; rfl
  | cons a A0 ih =>
      by_cases ha : isPySpace a = true
      · rw [List.cons_append, pyLstrip, List.dropWhile_cons, if_pos ha]
        exact ih
      · right
        rw [Bool.not_eq_true] at ha
        rw [List.cons_append, pyLstrip, List.dropWhile_cons, if_neg (by simp [ha])]
        exact ⟨a :: A0, rfl⟩

theorem tailsAfterNL_mem (A2 s0 : List Char) : s0 ∈ tailsAfterNL (A2 ++ '\n' :: s0) := by
  induction A2 with
  | nil => simp [tailsAfterNL]
  | cons a A2 ih =>
      rw [List.cons_append]
      unfold tailsAfterNL
      by_cases ha : a = '\n'
      · rw [if_pos ha]
        exact List.mem_cons_of_mem _ ih
      · rw [if_neg ha]
        exact ih

theorem pyRstrip_append_mid {P c2 : List Char} {x : Char} (hx : isPySpace x = false) :
    pyRstrip (P ++ x :: c2) = P ++ x :: pyRstrip c2 := by
  unfold pyRstrip
  rw [List.reverse_append, List.reverse_cons, List.append_assoc, List.singleton_append]
  rw [dropWhile_append_head hx]
  simp [List.reverse_append]

theorem clueHeadingAt_hashes {n : Nat} {w : Char} {R : List Char}
    (hn1 : 1 ≤ n) (hn6 : n ≤ 6) (hw : isPySpace w = true) :
    clueHeadingAt (List.replicate n '#' ++ w :: R) = true := by
  have hwh : w ≠ '#' := by
    intro h
    rw [h] at hw
    exact absurd hw (by decide)
  have htw : (List.replicate n '#' ++ w :: R).takeWhile (fun c => c = '#') =
      List.replicate n '#' := by
    apply takeWhile_append_stop
    · intro a ha
      simp [List.eq_of_mem_replicate ha]
    · simp [hwh]
  unfold clueHeadingAt
  dsimp only
  rw [htw, List.length_replicate]
  have hdrop : (List.replicate n '#' ++ w :: R).drop n = w :: R := by
    have := List.drop_left (List.replicate n '#') (w :: R)
    rwa [List.length_replicate] at this
  rw [hdrop]
  simp [hn1, hn6, hw]

/-- C2 (amended): a text containing a line of one to six hashes followed
by a whitespace character and content with some non-whitespace character
is classified as Markdown, provided the stripped text contains a newline
or has length at least 6 (the short-single-line guard of the source
rejects it otherwise). -/
theorem C2_heading_line_classified (t : String) (A c : List Char) (n : Nat) (w : Char)
    (ht : t.data = A ++ List.replicate n '#' ++ w :: c)
    (hA : A = [] ∨ ∃ A0, A = A0 ++ ['\n'])
    (hn1 : 1 ≤ n) (hn6 : n ≤ 6)
    (hw : isPySpace w = true)
    (hc : ∃ x ∈ c, isPySpace x = false)
    (hguard : (pyStrip t.data).contains '\n' = true ∨ 6 ≤ (pyStrip t.data).length) :
    looksLikeMarkdown t = true := by
  obtain ⟨x, hxc, hx⟩ := hc
  obtain ⟨c1, c2, rfl⟩ := List.append_of_mem hxc
  obtain ⟨m, hkm, hrep⟩ := replicate_hash_cons hn1
  have hcons : List.replicate n '#' ++ w :: (c1 ++ x :: c2) =
      '#' :: (List.replicate m '#' ++ w :: (c1 ++ x :: c2)) := by
    rw [hrep, List.cons_append]
  have hls : pyLstrip t.data =
      pyLstrip A ++ (List.replicate n '#' ++ w :: (c1 ++ x :: c2)) := by
    rw [ht, List.append_assoc, hcons]
    unfold pyLstrip
    rw [dropWhile_append_head (by decide : isPySpace '#' = false)]
  have hshape : pyStrip t.data =
      pyLstrip A ++ (List.replicate n '#' ++ w :: (c1 ++ x :: pyRstrip c2)) := by
    unfold pyStrip
    rw [hls]
    have hgrp : pyLstrip A ++ (List.replicate n '#' ++ w :: (c1 ++ x :: c2)) =
        (pyLstrip A ++ List.replicate n '#' ++ w :: c1) ++ x :: c2 := by simp
    rw [hgrp, pyRstrip_append_mid hx]
    simp
  have hclue : clueHeadingAt (List.replicate n '#' ++ w :: (c1 ++ x :: pyRstrip c2)) = true :=
    clueHeadingAt_hashes hn1 hn6 hw
  have hany : anyLineStart clueHeadingAt (pyStrip t.data) = true := by
    rw [hshape]
    rcases hA with rfl | ⟨A0, rfl⟩
    · simp only [pyLstrip, List.dropWhile_nil, List.nil_append]
      unfold anyLineStart
      simp [hclue]
    · rcases pyLstrip_newline_suffix A0 with h0 | ⟨B, hB⟩
      · rw [h0, List.nil_append]
        unfold anyLineStart
        simp [hclue]
      · rw [hB]
        have hBr : (B ++ ['\n']) ++ (List.replicate n '#' ++ w :: (c1 ++ x :: pyRstrip c2)) =
            B ++ '\n' :: (List.replicate n '#' ++ w :: (c1 ++ x :: pyRstrip c2)) := by simp
        rw [hBr]
        unfold anyLineStart
        have hmem := tailsAfterNL_mem B (List.replicate n '#' ++ w :: (c1 ++ x :: pyRstrip c2))
        have hanytail : (tailsAfterNL
            (B ++ '\n' :: (List.replicate n '#' ++ w :: (c1 ++ x :: pyRstrip c2)))).any
              clueHeadingAt = true :=
          List.any_eq_true.mpr ⟨_, hmem, hclue⟩
        simp [hanytail]
  have hcons2 : List.replicate n '#' ++ w :: (c1 ++ x :: pyRstrip c2) =
      '#' :: (List.replicate m '#' ++ w :: (c1 ++ x :: pyRstrip c2)) := by
    rw [hrep, List.cons_append]
  have hne2 : (pyStrip t.data).isEmpty = false := by
    rw [hshape, hcons2]
    simp
  have hguard2 : ¬(¬(pyStrip t.data).contains '\n' = true ∧ (pyStrip t.data).length < 6) := by
    rcases hguard with h | h
    · exact fun hcon => hcon.1 h
    · exact fun hcon => absurd hcon.2 (by omega)
  unfold looksLikeMarkdown
  dsimp only
  rw [if_neg (by simp [hne2]), if_neg hguard2]
  simp [hany]

/-- Counterexample to C2 as stated: the text `"# a"` contains a line of
one hash, whitespace and content, yet the classifier returns false,
because the stripped text has no newline and fewer than 6 characters. -/
theorem C2_counterexample :
    ("# a".data = ([] : List Char) ++ List.replicate 1 '#' ++ ' ' :: "a".data ∧
     isPySpace ' ' = true ∧ isPySpace 'a' = false) ∧
    looksLikeMarkdown "# a" = false := by
  exact ⟨⟨by decide, by decide, by decide⟩, by decide⟩

/-- Witness for the amended C2 at the concrete text `"# Title"`. -/
theorem C2_heading_line_classified_witness :
    ("# Title".data = ([] : List Char) ++ List.replicate 1 '#' ++ ' ' :: "Title".data ∧
     (1 : Nat) ≤ 1 ∧ 1 ≤ 6 ∧ isPySpace ' ' = true ∧
     (∃ x ∈ "Title".data, isPySpace x = false) ∧
     6 ≤ (pyStrip "# Title".data).length) ∧
    looksLikeMarkdown "# Title" = true :=
  ⟨⟨by decide, by decide, by decide, by decide, by decide, by decide⟩,
   C2_heading_line_classified "# Title" [] "Title".data 1 ' ' (by decide) (Or.inl rfl)
     (by decide) (by decide) (by decide) (by decide) (Or.inr (by decide))⟩

/-!
Claims C5 and C3: list runs and fenced code blocks.  Round-trip lemmas
for the line handling and fold lemmas for homogeneous runs of lines.
-/

theorem pyRstrip_length_le (l : List Char) : (pyRstrip l).length ≤ l.length := by
  unfold pyRstrip
  calc (l.reverse.dropWhile isPySpace).reverse.length
      = (l.reverse.dropWhile isPySpace).length := by rw [List.length_reverse]
    _ ≤ l.reverse.length := (List.dropWhile_sublist _).length_le
    _ = l.length := List.length_reverse l

theorem pyLstrip_length_le (l : List Char) : (pyLstrip l).length ≤ l.length :=
  (List.dropWhile_sublist _).length_le

theorem pyStrip_self_parts {c : List Char} (hc : pyStrip c = c) :
    pyLstrip c = c ∧ pyRstrip c = c := by
  have hlen : c.length ≤ (pyLstrip c).length := by
    have h1 := pyRstrip_length_le (pyLstrip c)
    have h2 : (pyStrip c).length = c.length := by rw [hc]
    unfold pyStrip at h2
    omega
  have hl : pyLstrip c = c :=
    (List.dropWhile_sublist _).eq_of_length
      (Nat.le_antisymm (pyLstrip_length_le c) hlen)
  refine ⟨hl, ?_⟩
  have := hc
  unfold pyStrip at this
  rwa [hl] at this

theorem pyLstrip_self_of_strip {c : List Char} (hc : pyStrip c = c) : pyLstrip c = c :=
  (pyStrip_self_parts hc).1

theorem pyRstrip_self_of_strip {c : List Char} (hc : pyStrip c = c) : pyRstrip c = c :=
  (pyStrip_self_parts hc).2

theorem normNL_id {l : List Char} (h : '\r' ∉ l) : normNL l = l := by
  induction l using normNL.induct with
  | case1 => rfl
  | case2 rest ih => simp at h
  | case3 rest hne ih => simp at h
  | case4 c rest h1 h2 ih =>
      have hr : '\r' ∉ rest := fun hm => h (List.mem_cons_of_mem _ hm)
      rw [normNL.eq_def]
      split
      · simp_all
      · simp_all
      · simp_all
      · rename_i heq2
        injection heq2 with e1 e2
        subst e1
        subst e2
        rw [ih hr]

theorem splitNL_no_nl {l : List Char} (h : '\n' ∉ l) : splitNL l = [l] := by
  induction l with
  | nil => rfl
  | cons c rest ih =>
      have hc : c ≠ '\n' := fun hh => h (hh ▸ List.mem_cons_self _ _)
      have hr : '\n' ∉ rest := fun hm => h (List.mem_cons_of_mem _ hm)
      rw [splitNL, if_neg hc, ih hr]

theorem splitNL_append_nl {l : List Char} (R : List Char) (h : '\n' ∉ l) :
    splitNL (l ++ '\n' :: R) = l :: splitNL R := by
  induction l with
  | nil => rw [List.nil_append, splitNL, if_pos rfl]
  | cons c rest ih =>
      have hc : c ≠ '\n' := fun hh => h (hh ▸ List.mem_cons_self _ _)
      have hr : '\n' ∉ rest := fun hm => h (List.mem_cons_of_mem _ hm)
      rw [List.cons_append, splitNL, if_neg hc, ih hr]

theorem splitNL_joinNL {L : List (List Char)} (hne : L ≠ [])
    (h : ∀ l ∈ L, '\n' ∉ l) : splitNL (joinNL L) = L := by
  induction L with
  | nil => exact absurd rfl hne
  | cons l L ih =>
      cases L with
      | nil => exact splitNL_no_nl (h l (by simp))
      | cons l2 L2 =>
          have hj : joinNL (l :: l2 :: L2) = l ++ '\n' :: joinNL (l2 :: L2) := rfl
          rw [hj, splitNL_append_nl _ (h l (by simp))]
          rw [ih (List.cons_ne_nil _ _) (fun x hx => h x (List.mem_cons_of_mem _ hx))]

theorem stripped_uline {c : List Char} (hrs : pyRstrip c = c) (hne : c ≠ []) :
    pyLstrip (pyRstrip ('-' :: ' ' :: c)) = '-' :: ' ' :: c := by
  have h1 : ('-' :: ' ' :: c) = ['-', ' '] ++ c := rfl
  rw [h1, pyRstrip_append hrs hne]
  exact pyLstrip_cons_of (by decide)

theorem unorderedMatch_dash {c : List Char} (hls : pyLstrip c = c) :
    unorderedMatch ('-' :: ' ' :: c) = some c := by
  unfold unorderedMatch
  dsimp only
  rw [if_pos (Or.inl rfl)]
  rw [if_pos (by rw [List.takeWhile_cons, if_pos (by decide)]; simp)]
  rw [List.dropWhile_cons, if_pos (by decide)]
  exact congrArg some hls

theorem uline_not_fence {c : List Char} :
    "```".data.isPrefixOf ('-' :: ' ' :: c) = false := by
  simp [List.isPrefixOf]

theorem uline_not_empty {c : List Char} : ('-' :: ' ' :: c : List Char).isEmpty = false := rfl

theorem uline_not_hr {c : List Char} :
    ¬('-' :: ' ' :: c = "---".data ∨ '-' :: ' ' :: c = "***".data ∨
      '-' :: ' ' :: c = "___".data) := by
  intro h
  rcases h with h | h | h <;> simp at h

theorem uline_not_heading {c : List Char} : headingMatch ('-' :: ' ' :: c) = none := by
  unfold headingMatch
  dsimp only
  rw [List.takeWhile_cons, if_neg (by simp)]

theorem uline_not_quote {c : List Char} : blockquoteMatch ('-' :: ' ' :: c) = none := rfl

theorem processLine_uitem_fresh (s : MDState) (c : List Char)
    (hcode : s.inCode = false) (hpara : s.paragraphLines = [])
    (hstack : s.listStack = [])
    (hc : pyStrip c = c) (hne : c ≠ []) :
    processLine s ('-' :: ' ' :: c) =
      { s with
        listStack := ["ul".data]
        htmlLines := s.htmlLines ++
          ["<ul>".data, "<li>".data ++ processInline c ++ "</li>".data] } := by
  obtain ⟨hls, hrs⟩ := pyStrip_self_parts hc
  have hstr := stripped_uline hrs hne
  have hdisp := processLine_unordered s ('-' :: ' ' :: c) c hcode
    (by rw [hstr]; exact uline_not_fence)
    (by rw [hstr]; exact uline_not_empty)
    (by rw [hstr]; exact uline_not_hr)
    (by rw [hstr]; exact uline_not_heading)
    (by rw [hstr]; exact uline_not_quote)
    (by rw [hstr]; exact unorderedMatch_dash hls)
  rw [hdisp]
  rw [flushParagraph_of_empty _ hpara]
  dsimp only
  rw [if_pos (by rw [hstack]; simp)]
  unfold closeLists
  rw [hstack]
  simp [hc]

theorem processLine_uitem_inul (s : MDState) (c : List Char)
    (hcode : s.inCode = false) (hpara : s.paragraphLines = [])
    (hstack : s.listStack = ["ul".data])
    (hc : pyStrip c = c) (hne : c ≠ []) :
    processLine s ('-' :: ' ' :: c) =
      { s with htmlLines := s.htmlLines ++
          ["<li>".data ++ processInline c ++ "</li>".data] } := by
  obtain ⟨hls, hrs⟩ := pyStrip_self_parts hc
  have hstr := stripped_uline hrs hne
  have hdisp := processLine_unordered s ('-' :: ' ' :: c) c hcode
    (by rw [hstr]; exact uline_not_fence)
    (by rw [hstr]; exact uline_not_empty)
    (by rw [hstr]; exact uline_not_hr)
    (by rw [hstr]; exact uline_not_heading)
    (by rw [hstr]; exact uline_not_quote)
    (by rw [hstr]; exact unorderedMatch_dash hls)
  rw [hdisp]
  rw [flushParagraph_of_empty _ hpara]
  dsimp only
  rw [if_neg (by rw [hstack]; simp)]
  simp [hc]

theorem stripped_oline {c : List Char} (hrs : pyRstrip c = c) (hne : c ≠ []) :
    pyLstrip (pyRstrip ('1' :: '.' :: ' ' :: c)) = '1' :: '.' :: ' ' :: c := by
  have h1 : ('1' :: '.' :: ' ' :: c) = ['1', '.', ' '] ++ c := rfl
  rw [h1, pyRstrip_append hrs hne]
  exact pyLstrip_cons_of (by decide)

theorem orderedMatch_num {c : List Char} (hls : pyLstrip c = c) :
    orderedMatch ('1' :: '.' :: ' ' :: c) = some c := by
  have hd : ('1' :: '.' :: ' ' :: c).takeWhile Char.isDigit = ['1'] := by
    rw [List.takeWhile_cons, if_pos (by decide), List.takeWhile_cons, if_neg (by decide)]
  unfold orderedMatch
  dsimp only
  rw [hd]
  rw [if_pos (by simp)]
  have hdrop : ('1' :: '.' :: ' ' :: c).drop (['1'] : List Char).length = '.' :: ' ' :: c := rfl
  rw [hdrop]
  dsimp only
  rw [if_pos (Or.inl rfl)]
  rw [if_pos (by rw [List.takeWhile_cons, if_pos (by decide)]; simp)]
  rw [List.dropWhile_cons, if_pos (by decide)]
  exact congrArg some hls

theorem oline_not_fence {c : List Char} :
    "```".data.isPrefixOf ('1' :: '.' :: ' ' :: c) = false := by
  simp [List.isPrefixOf]

theorem oline_not_empty {c : List Char} :
    ('1' :: '.' :: ' ' :: c : List Char).isEmpty = false := rfl

theorem oline_not_hr {c : List Char} :
    ¬('1' :: '.' :: ' ' :: c = "---".data ∨ '1' :: '.' :: ' ' :: c = "***".data ∨
      '1' :: '.' :: ' ' :: c = "___".data) := by
  intro h
  rcases h with h | h | h <;> simp at h

theorem oline_not_heading {c : List Char} : headingMatch ('1' :: '.' :: ' ' :: c) = none := by
  unfold headingMatch
  dsimp only
  rw [List.takeWhile_cons, if_neg (by simp)]

theorem oline_not_quote {c : List Char} : blockquoteMatch ('1' :: '.' :: ' ' :: c) = none := rfl

theorem oline_not_unordered {c : List Char} :
    unorderedMatch ('1' :: '.' :: ' ' :: c) = none := by
  unfold unorderedMatch
  dsimp only
  rw [if_neg (by simp)]

theorem joinNL_mem {x : Char} {L : List (List Char)} (hx : x ∈ joinNL L) :
    x = '\n' ∨ ∃ l ∈ L, x ∈ l := by
  induction L with
  | nil => simp [joinNL] at hx
  | cons l L ih =>
      cases L with
      | nil =>
          simp only [joinNL] at hx
          exact Or.inr ⟨l, by simp, hx⟩
      | cons l2 L2 =>
          have hj : joinNL (l :: l2 :: L2) = l ++ '\n' :: joinNL (l2 :: L2) := rfl
          rw [hj] at hx
          rcases List.mem_append.mp hx with h | h
          · exact Or.inr ⟨l, by simp, h⟩
          · rcases List.mem_cons.mp h with h | h
            · exact Or.inl h
            · rcases ih h with h | ⟨l3, hl3, hxl3⟩
              · exact Or.inl h
              · exact Or.inr ⟨l3, List.mem_cons_of_mem _ hl3, hxl3⟩

theorem joinNL_no_cr {L : List (List Char)} (h : ∀ l ∈ L, '\r' ∉ l) :
    '\r' ∉ joinNL L := by
  intro hx
  rcases joinNL_mem hx with h1 | ⟨l, hl, hxl⟩
  · exact absurd h1 (by decide)
  · exact h l hl hxl

theorem processLine_oitem_from_ul (s : MDState) (c : List Char)
    (hcode : s.inCode = false) (hpara : s.paragraphLines = [])
    (hstack : s.listStack = ["ul".data])
    (hc : pyStrip c = c) (hne : c ≠ []) :
    processLine s ('1' :: '.' :: ' ' :: c) =
      { s with
        listStack := ["ol".data]
        htmlLines := s.htmlLines ++
          ["</ul>".data, "<ol>".data,
           "<li>".data ++ processInline c ++ "</li>".data] } := by
  obtain ⟨hls, hrs⟩ := pyStrip_self_parts hc
  have hstr := stripped_oline hrs hne
  have hdisp := processLine_ordered s ('1' :: '.' :: ' ' :: c) c hcode
    (by rw [hstr]; exact oline_not_fence)
    (by rw [hstr]; exact oline_not_empty)
    (by rw [hstr]; exact oline_not_hr)
    (by rw [hstr]; exact oline_not_heading)
    (by rw [hstr]; exact oline_not_quote)
    (by rw [hstr]; exact oline_not_unordered)
    (by rw [hstr]; exact orderedMatch_num hls)
  rw [hdisp]
  rw [flushParagraph_of_empty _ hpara]
  dsimp only
  rw [if_pos (by rw [hstack]; simp)]
  unfold closeLists
  rw [hstack]
  simp [hc]

theorem foldl_uitems (items : List (List Char)) (s : MDState)
    (hw : ∀ c ∈ items, pyStrip c = c ∧ c ≠ [])
    (hcode : s.inCode = false) (hpara : s.paragraphLines = [])
    (hstack : s.listStack = ["ul".data]) :
    (items.map (fun c => '-' :: ' ' :: c)).foldl processLine s =
      { s with htmlLines := s.htmlLines ++
          items.map (fun c => "<li>".data ++ processInline c ++ "</li>".data) } := by
  induction items generalizing s with
  | nil => simp
  | cons c items ih =>
      rw [List.map_cons, List.foldl_cons]
      rw [processLine_uitem_inul s c hcode hpara hstack (hw c (by simp)).1 (hw c (by simp)).2]
      rw [ih _ (fun x hx => hw x (List.mem_cons_of_mem _ hx)) (by simp [hcode])
          (by simp [hpara]) (by simp [hstack])]
      simp

theorem run_uitems (items : List (List Char)) (c0 : List Char)
    (hw : ∀ c ∈ c0 :: items, pyStrip c = c ∧ c ≠ []) :
    ((c0 :: items).map (fun c => '-' :: ' ' :: c)).foldl processLine initState =
      ⟨"<ul>".data ::
        (c0 :: items).map (fun c => "<li>".data ++ processInline c ++ "</li>".data),
       false, [], ["ul".data], []⟩ := by
  rw [List.map_cons, List.foldl_cons]
  rw [processLine_uitem_fresh initState c0 rfl rfl rfl (hw c0 (by simp)).1 (hw c0 (by simp)).2]
  rw [foldl_uitems items _ (fun x hx => hw x (List.mem_cons_of_mem _ hx)) rfl rfl rfl]
  simp [initState]

/-- C5: a contiguous run of unordered list item lines produces exactly
one `<ul>`/`</ul>` pair regardless of run length (first conjunct); the
run followed by an ordered item closes the unordered list before the
ordered one opens (second conjunct); the run followed by a blank line is
closed before any later output (third conjunct). -/
theorem C5_single_ul_pair (items : List (List Char)) (oc : List Char)
    (hne : items ≠ [])
    (hw : ∀ c ∈ items, pyStrip c = c ∧ c ≠ [] ∧ '\n' ∉ c ∧ '\r' ∉ c)
    (hoc : pyStrip oc = oc ∧ oc ≠ [] ∧ '\n' ∉ oc ∧ '\r' ∉ oc) :
    basicMarkdownToHtmlLines (joinNL (items.map (fun c => '-' :: ' ' :: c))) =
      ["<ul>".data] ++
        items.map (fun c => "<li>".data ++ processInline c ++ "</li>".data) ++
        ["</ul>".data] ∧
    basicMarkdownToHtmlLines (joinNL (items.map (fun c => '-' :: ' ' :: c) ++
        ['1' :: '.' :: ' ' :: oc])) =
      ["<ul>".data] ++
        items.map (fun c => "<li>".data ++ processInline c ++ "</li>".data) ++
        ["</ul>".data, "<ol>".data,
         "<li>".data ++ processInline oc ++ "</li>".data, "</ol>".data] ∧
    basicMarkdownToHtmlLines (joinNL (items.map (fun c => '-' :: ' ' :: c) ++
        [[], "after".data])) =
      ["<ul>".data] ++
        items.map (fun c => "<li>".data ++ processInline c ++ "</li>".data) ++
        ["</ul>".data, "<p>".data ++ processInline "after".data ++ "</p>".data] := by
  obtain ⟨c0, rest, rfl⟩ : ∃ c0 rest, items = c0 :: rest := by
    cases items with
    | nil => exact absurd rfl hne
    | cons a b => exact ⟨a, b, rfl⟩
  have hw2 : ∀ c ∈ c0 :: rest, pyStrip c = c ∧ c ≠ [] := fun c hc =>
    ⟨(hw c hc).1, (hw c hc).2.1⟩
  have hnonl : ∀ l ∈ (c0 :: rest).map (fun c => '-' :: ' ' :: c), '\n' ∉ l := by
    intro l hl
    obtain ⟨c, hc, rfl⟩ := List.mem_map.mp hl
    intro hx
    rcases List.mem_cons.mp hx with h | hx
    · exact absurd h (by decide)
    rcases List.mem_cons.mp hx with h | hx
    · exact absurd h (by decide)
    exact (hw c hc).2.2.1 hx
  have hnocr : ∀ l ∈ (c0 :: rest).map (fun c => '-' :: ' ' :: c), '\r' ∉ l := by
    intro l hl
    obtain ⟨c, hc, rfl⟩ := List.mem_map.mp hl
    intro hx
    rcases List.mem_cons.mp hx with h | hx
    · exact absurd h (by decide)
    rcases List.mem_cons.mp hx with h | hx
    · exact absurd h (by decide)
    exact (hw c hc).2.2.2 hx
  refine ⟨?_, ?_, ?_⟩
  · unfold basicMarkdownToHtmlLines
    dsimp only
    rw [normNL_id (joinNL_no_cr hnocr)]
    rw [splitNL_joinNL (by simp) hnonl]
    rw [run_uitems _ _ hw2]
    rw [flushParagraph_of_empty _ rfl]
    unfold closeLists
    simp
  · unfold basicMarkdownToHtmlLines
    dsimp only
    rw [normNL_id (joinNL_no_cr (by
      intro l hl
      rcases List.mem_append.mp hl with h | h
      · exact hnocr l h
      · simp at h
        subst h
        intro hx
        rcases List.mem_cons.mp hx with h | hx
        · exact absurd h (by decide)
        rcases List.mem_cons.mp hx with h | hx
        · exact absurd h (by decide)
        rcases List.mem_cons.mp hx with h | hx
        · exact absurd h (by decide)
        exact hoc.2.2.2 hx))]
    rw [splitNL_joinNL (by simp) (by
      intro l hl
      rcases List.mem_append.mp hl with h | h
      · exact hnonl l h
      · simp at h
        subst h
        intro hx
        rcases List.mem_cons.mp hx with h | hx
        · exact absurd h (by decide)
        rcases List.mem_cons.mp hx with h | hx
        · exact absurd h (by decide)
        rcases List.mem_cons.mp hx with h | hx
        · exact absurd h (by decide)
        exact hoc.2.2.1 hx)]
    rw [List.foldl_append]
    rw [run_uitems _ _ hw2]
    rw [List.foldl_cons, List.foldl_nil]
    rw [processLine_oitem_from_ul _ _ rfl rfl rfl hoc.1 hoc.2.1]
    rw [flushParagraph_of_empty _ rfl]
    unfold closeLists
    simp
  · unfold basicMarkdownToHtmlLines
    dsimp only
    rw [normNL_id (joinNL_no_cr (by
      intro l hl
      rcases List.mem_append.mp hl with h | h
      · exact hnocr l h
      · simp at h
        rcases h with h | h <;> subst h
        · simp
        · decide))]
    rw [splitNL_joinNL (by simp) (by
      intro l hl
      rcases List.mem_append.mp hl with h | h
      · exact hnonl l h
      · simp at h
        rcases h with h | h <;> subst h
        · simp
        · decide)]
    rw [List.foldl_append]
    rw [run_uitems _ _ hw2]
    rw [List.foldl_cons, List.foldl_cons, List.foldl_nil]
    have hblank : processLine
        (⟨"<ul>".data ::
            (c0 :: rest).map (fun c => "<li>".data ++ processInline c ++ "</li>".data),
          false, [], ["ul".data], []⟩ : MDState) [] =
        ⟨("<ul>".data ::
            (c0 :: rest).map (fun c => "<li>".data ++ processInline c ++ "</li>".data)) ++
          ["</ul>".data], false, [], [], []⟩ := by
      rw [processLine_blank _ _ rfl (by decide)]
      rw [flushParagraph_of_empty _ rfl]
      unfold closeLists
      simp
    rw [hblank]
    rw [processLine_paragraph _ ("after".data) rfl (by decide) (by decide) (by decide)
      (by decide) (by decide) (by decide) (by decide)]
    dsimp only
    have hflush : ∀ H : List (List Char),
        flushParagraph ⟨H, false, [], [], [] ++ [pyLstrip (pyRstrip "after".data)]⟩ =
        ⟨H ++ ["<p>".data ++ processInline "after".data ++ "</p>".data],
         false, [], [], []⟩ := by
      intro H
      unfold flushParagraph
      dsimp only
      rw [if_neg (by decide)]
      have hpar : pyStrip (joinSpace (List.map pyStrip
          ([] ++ [pyLstrip (pyRstrip "after".data)]))) = "after".data := by decide
      rw [hpar]
      rw [if_neg (by decide)]
    rw [hflush]
    unfold closeLists
    simp

/-- Witness for C5 at the concrete run `"- one"`, `"- two"` with ordered
follower content `"x"`. -/
theorem C5_single_ul_pair_witness :
    basicMarkdownToHtmlLines
        (joinNL (["one".data, "two".data].map (fun c => '-' :: ' ' :: c))) =
      ["<ul>".data] ++
        ["one".data, "two".data].map
          (fun c => "<li>".data ++ processInline c ++ "</li>".data) ++
        ["</ul>".data] ∧
    basicMarkdownToHtmlLines
        (joinNL (["one".data, "two".data].map (fun c => '-' :: ' ' :: c) ++
          ['1' :: '.' :: ' ' :: "x".data])) =
      ["<ul>".data] ++
        ["one".data, "two".data].map
          (fun c => "<li>".data ++ processInline c ++ "</li>".data) ++
        ["</ul>".data, "<ol>".data,
         "<li>".data ++ processInline "x".data ++ "</li>".data, "</ol>".data] ∧
    basicMarkdownToHtmlLines
        (joinNL (["one".data, "two".data].map (fun c => '-' :: ' ' :: c) ++
          [[], "after".data])) =
      ["<ul>".data] ++
        ["one".data, "two".data].map
          (fun c => "<li>".data ++ processInline c ++ "</li>".data) ++
        ["</ul>".data, "<p>".data ++ processInline "after".data ++ "</p>".data] :=
  C5_single_ul_pair ["one".data, "two".data] "x".data (by decide) (by decide) (by decide)

theorem foldl_code_lines (L : List (List Char)) (s : MDState) (hcode : s.inCode = true)
    (hnf : ∀ l ∈ L, "```".data.isPrefixOf (pyLstrip (pyRstrip l)) = false) :
    L.foldl processLine s = { s with htmlLines := s.htmlLines ++ L.map (htmlEscape true) } := by
  induction L generalizing s with
  | nil => simp
  | cons l L ih =>
      rw [List.foldl_cons, processLine_inCode s l hcode (hnf l (by simp))]
      rw [ih _ (by simp [hcode]) (fun x hx => hnf x (List.mem_cons_of_mem _ hx))]
      simp

/-- C3: every line inside an open fenced code block is emitted
HTML-entity-escaped verbatim (`html.escape` of the raw line) and is not
passed through the inline processor; the whole fenced region renders as
the escaped lines between the code-block markers. -/
theorem C3_fence_content_escaped_verbatim (codeLines : List (List Char))
    (hne : codeLines ≠ [])
    (hws : ∀ l ∈ codeLines, '\n' ∉ l ∧ '\r' ∉ l ∧
      "```".data.isPrefixOf (pyLstrip (pyRstrip l)) = false) :
    basicMarkdownToHtmlLines (joinNL ("```".data :: (codeLines ++ ["```".data]))) =
      ["<pre><code>".data] ++ codeLines.map (htmlEscape true) ++ ["</code></pre>".data] := by
  unfold basicMarkdownToHtmlLines
  dsimp only
  rw [normNL_id (joinNL_no_cr (by
    intro l hl
    rcases List.mem_cons.mp hl with rfl | hl
    · decide
    rcases List.mem_append.mp hl with h | h
    · exact (hws l h).2.1
    · simp at h
      subst h
      decide))]
  rw [splitNL_joinNL (List.cons_ne_nil _ _) (by
    intro l hl
    rcases List.mem_cons.mp hl with rfl | hl
    · decide
    rcases List.mem_append.mp hl with h | h
    · exact (hws l h).1
    · simp at h
      subst h
      decide)]
  rw [List.foldl_cons]
  have hopen : processLine initState "```".data = ⟨["<pre><code>".data], true, [], [], []⟩ := by
    rw [processLine_fence_open initState "```".data rfl (by decide)]
    rw [flushParagraph_of_empty _ rfl]
    unfold closeLists
    simp [initState]
    decide
  rw [hopen, List.foldl_append]
  rw [foldl_code_lines codeLines _ rfl (fun l hl => (hws l hl).2.2)]
  rw [List.foldl_cons, List.foldl_nil]
  rw [processLine_fence_close _ "```".data rfl (by decide)]
  rw [flushParagraph_of_empty _ rfl]
  unfold closeLists
  simp

/-- Witness for C3 with the literal `*not bold*` inside the fence: the
line renders as escaped literal text between the code markers and no
emphasis element is produced. -/
theorem C3_fence_content_escaped_verbatim_witness :
    basicMarkdownToHtmlLines (joinNL ("```".data :: (["*not bold*".data] ++ ["```".data]))) =
      ["<pre><code>".data] ++ ["*not bold*".data].map (htmlEscape true) ++
      ["</code></pre>".data] :=
  C3_fence_content_escaped_verbatim ["*not bold*".data] (by decide) (by decide)

/-!
Claim C4: balance of the emitted code-block markers.  Every element the
parser emits other than the two markers satisfies neither recogniser, so
the count difference tracks the `in_code_block` flag exactly.
-/

theorem head_mem_of_isPrefixOf {p : Char} {ps l : List Char}
    (h : (p :: ps).isPrefixOf l = true) : p ∈ l := by
  cases l with
  | nil => simp [List.isPrefixOf] at h
  | cons c rest =>
      simp [List.isPrefixOf] at h
      simp [h.1]

theorem htmlEscape_no_lt (q : Bool) (l : List Char) : '<' ∉ htmlEscape q l := by
  induction l with
  | nil => simp [htmlEscape]
  | cons c rest ih =>
      intro hx
      rcases List.mem_append.mp hx with h | h
      · unfold escChar at h
        repeat' split at h
        all_goals simp_all
        exact absurd h.symm (by assumption)
      · exact ih h

theorem codeTags_escaped (q : Bool) (l : List Char) :
    isCodeOpenTag (htmlEscape q l) = false ∧ isCodeCloseTag (htmlEscape q l) = false := by
  constructor
  · cases he : isCodeOpenTag (htmlEscape q l)
    · rfl
    · exact absurd (head_mem_of_isPrefixOf he) (htmlEscape_no_lt q l)
  · cases he : isCodeCloseTag (htmlEscape q l)
    · rfl
    · exfalso
      have : htmlEscape q l = "</code></pre>".data := by
        simpa [isCodeCloseTag] using he
      exact htmlEscape_no_lt q l (by rw [this]; decide)

theorem codeTags_para_open (r : List Char) :
    isCodeOpenTag ('<' :: 'p' :: '>' :: r) = false := by
  simp [isCodeOpenTag, List.isPrefixOf]

theorem codeTags_para_close (r : List Char) :
    isCodeCloseTag ('<' :: 'p' :: '>' :: r) = false := by
  simp [isCodeCloseTag]

theorem codeTags_h (r : List Char) :
    isCodeOpenTag ("<h".data ++ r) = false ∧ isCodeCloseTag ("<h".data ++ r) = false := by
  constructor
  · show isCodeOpenTag ('<' :: 'h' :: r) = false
    simp [isCodeOpenTag, List.isPrefixOf]
  · show isCodeCloseTag ('<' :: 'h' :: r) = false
    simp [isCodeCloseTag]

theorem codeTags_bq (r : List Char) :
    isCodeOpenTag ("<blockquote>".data ++ r) = false ∧
    isCodeCloseTag ("<blockquote>".data ++ r) = false := by
  constructor
  · show isCodeOpenTag ('<' :: 'b' :: "lockquote>".data ++ r) = false
    simp [isCodeOpenTag, List.isPrefixOf]
  · show isCodeCloseTag ('<' :: 'b' :: "lockquote>".data ++ r) = false
    simp [isCodeCloseTag]

theorem codeTags_li (r : List Char) :
    isCodeOpenTag ("<li>".data ++ r) = false ∧ isCodeCloseTag ("<li>".data ++ r) = false := by
  constructor
  · show isCodeOpenTag ('<' :: 'l' :: 'i' :: '>' :: r) = false
    simp [isCodeOpenTag, List.isPrefixOf]
  · show isCodeCloseTag ('<' :: 'l' :: 'i' :: '>' :: r) = false
    simp [isCodeCloseTag]

theorem codeTags_open (r : List Char) :
    isCodeOpenTag ("<pre><code".data ++ r) = true ∧
    isCodeCloseTag ("<pre><code".data ++ r) = false := by
  constructor
  · simp [isCodeOpenTag]
  · simp [isCodeCloseTag]

theorem flushParagraph_counts (s : MDState) :
    (flushParagraph s).htmlLines.countP isCodeOpenTag =
      s.htmlLines.countP isCodeOpenTag ∧
    (flushParagraph s).htmlLines.countP isCodeCloseTag =
      s.htmlLines.countP isCodeCloseTag := by
  unfold flushParagraph
  split
  · exact ⟨rfl, rfl⟩
  · dsimp only
    split
    · exact ⟨rfl, rfl⟩
    · constructor <;>
        simp [List.countP_append, List.countP_cons, codeTags_para_open, codeTags_para_close]

theorem countP_closeTags {stack : List (List Char)}
    (h : ∀ e ∈ stack, e = "ul".data ∨ e = "ol".data) :
    (stack.map (fun t => "</".data ++ t ++ ['>'])).countP isCodeOpenTag = 0 ∧
    (stack.map (fun t => "</".data ++ t ++ ['>'])).countP isCodeCloseTag = 0 := by
  induction stack with
  | nil => simp
  | cons e rest ih =>
      have hr := ih (fun x hx => h x (List.mem_cons_of_mem _ hx))
      have hopen : isCodeOpenTag ("</".data ++ e ++ ['>']) = false := by
        rcases h e (by simp) with he | he <;> (subst he; decide)
      have hclose : isCodeCloseTag ("</".data ++ e ++ ['>']) = false := by
        rcases h e (by simp) with he | he <;> (subst he; decide)
      have hbeta : (fun t => "</".data ++ t ++ ['>']) e = "</".data ++ e ++ ['>'] := rfl
      refine ⟨?_, ?_⟩
      · rw [List.map_cons, List.countP_cons, hr.1, hopen]
        rfl
      · rw [List.map_cons, List.countP_cons, hr.2, hclose]
        rfl

theorem closeLists_counts (s : MDState)
    (h : ∀ e ∈ s.listStack, e = "ul".data ∨ e = "ol".data) :
    (closeLists s).htmlLines.countP isCodeOpenTag =
      s.htmlLines.countP isCodeOpenTag ∧
    (closeLists s).htmlLines.countP isCodeCloseTag =
      s.htmlLines.countP isCodeCloseTag := by
  unfold closeLists
  dsimp only
  refine ⟨?_, ?_⟩
  · rw [List.countP_append, (countP_closeTags h).1]
    omega
  · rw [List.countP_append, (countP_closeTags h).2]
    omega

theorem codeTags_h_open (r : List Char) : isCodeOpenTag ('<' :: 'h' :: r) = false := by
  simp [isCodeOpenTag, List.isPrefixOf]

theorem codeTags_h_close (r : List Char) : isCodeCloseTag ('<' :: 'h' :: r) = false := by
  simp [isCodeCloseTag]

theorem codeTags_b_open (r : List Char) : isCodeOpenTag ('<' :: 'b' :: r) = false := by
  simp [isCodeOpenTag, List.isPrefixOf]

theorem codeTags_b_close (r : List Char) : isCodeCloseTag ('<' :: 'b' :: r) = false := by
  simp [isCodeCloseTag]

theorem codeTags_u_open (r : List Char) : isCodeOpenTag ('<' :: 'u' :: r) = false := by
  simp [isCodeOpenTag, List.isPrefixOf]

theorem codeTags_u_close (r : List Char) : isCodeCloseTag ('<' :: 'u' :: r) = false := by
  simp [isCodeCloseTag]

theorem codeTags_o_open (r : List Char) : isCodeOpenTag ('<' :: 'o' :: r) = false := by
  simp [isCodeOpenTag, List.isPrefixOf]

theorem codeTags_o_close (r : List Char) : isCodeCloseTag ('<' :: 'o' :: r) = false := by
  simp [isCodeCloseTag]

theorem codeTags_l_open (r : List Char) : isCodeOpenTag ('<' :: 'l' :: r) = false := by
  simp [isCodeOpenTag, List.isPrefixOf]

theorem codeTags_l_close (r : List Char) : isCodeCloseTag ('<' :: 'l' :: r) = false := by
  simp [isCodeCloseTag]

theorem codeTags_openTag_open (r : List Char) :
    isCodeOpenTag ('<' :: 'p' :: 'r' :: 'e' :: '>' :: '<' :: 'c' :: 'o' :: 'd' :: 'e' :: r) =
      true := by
  simp [isCodeOpenTag, List.isPrefixOf]

theorem codeTags_openTag_close (r : List Char) :
    isCodeCloseTag ('<' :: 'p' :: 'r' :: 'e' :: '>' :: '<' :: 'c' :: 'o' :: 'd' :: 'e' :: r) =
      false := by
  simp [isCodeCloseTag]

theorem codeTags_hr_open : isCodeOpenTag "<hr />".data = false := by decide

theorem codeTags_hr_close : isCodeCloseTag "<hr />".data = false := by decide

theorem codeTags_closer_open : isCodeOpenTag "</code></pre>".data = false := by decide

theorem codeTags_closer_close : isCodeCloseTag "</code></pre>".data = true := by decide

theorem processLine_stack_wf (s : MDState) (l : List Char)
    (hstack : ∀ e ∈ s.listStack, e = "ul".data ∨ e = "ol".data) :
    ∀ e ∈ (processLine s l).listStack, e = "ul".data ∨ e = "ol".data := by
  unfold processLine
  dsimp only
  repeat' split
  all_goals simp_all [closeLists_listStack, flushParagraph_listStack]

theorem processLine_counts (s : MDState) (l : List Char)
    (hstack : ∀ e ∈ s.listStack, e = "ul".data ∨ e = "ol".data)
    (hbal : s.htmlLines.countP isCodeOpenTag =
      s.htmlLines.countP isCodeCloseTag + (if s.inCode = true then 1 else 0)) :
    (processLine s l).htmlLines.countP isCodeOpenTag =
      (processLine s l).htmlLines.countP isCodeCloseTag +
      (if (processLine s l).inCode = true then 1 else 0) := by
  have hfc := flushParagraph_counts s
  have hcc := closeLists_counts (flushParagraph s)
    (by rw [flushParagraph_listStack]; exact hstack)
  have hopen1 : (closeLists (flushParagraph s)).htmlLines.countP isCodeOpenTag =
      s.htmlLines.countP isCodeOpenTag := by rw [hcc.1, hfc.1]
  have hclose1 : (closeLists (flushParagraph s)).htmlLines.countP isCodeCloseTag =
      s.htmlLines.countP isCodeCloseTag := by rw [hcc.2, hfc.2]
  have hin1 : (closeLists (flushParagraph s)).inCode = s.inCode := by
    rw [closeLists_inCode, flushParagraph_inCode]
  unfold processLine
  dsimp only
  repeat' split
  all_goals simp_all +decide [List.countP_append, List.countP_cons, List.cons_append,
    List.append_assoc, codeTags_para_open, codeTags_para_close, codeTags_h_open,
    codeTags_h_close, codeTags_b_open, codeTags_b_close, codeTags_u_open, codeTags_u_close,
    codeTags_o_open, codeTags_o_close, codeTags_l_open, codeTags_l_close,
    codeTags_openTag_open, codeTags_openTag_close, codeTags_hr_open, codeTags_hr_close,
    codeTags_closer_open, codeTags_closer_close, codeTags_escaped,
    flushParagraph_inCode, closeLists_inCode, flushParagraph_listStack, closeLists_listStack]

/-- C4: for every input text, the emitted output lines contain exactly as
many opening code-block markers as closing ones: an unterminated fence is
force-closed at end of input, so no opening marker is left unmatched. -/
theorem C4_code_markers_balanced (text : String) :
    (basicMarkdownToHtmlLines text.data).countP isCodeOpenTag =
    (basicMarkdownToHtmlLines text.data).countP isCodeCloseTag := by
  have key : ∀ (L : List (List Char)) (s : MDState),
      (∀ e ∈ s.listStack, e = "ul".data ∨ e = "ol".data) →
      s.htmlLines.countP isCodeOpenTag =
        s.htmlLines.countP isCodeCloseTag + (if s.inCode = true then 1 else 0) →
      (∀ e ∈ (L.foldl processLine s).listStack, e = "ul".data ∨ e = "ol".data) ∧
      (L.foldl processLine s).htmlLines.countP isCodeOpenTag =
        (L.foldl processLine s).htmlLines.countP isCodeCloseTag +
        (if (L.foldl processLine s).inCode = true then 1 else 0) := by
    intro L
    induction L with
    | nil => exact fun s h1 h2 => ⟨h1, h2⟩
    | cons l L ih =>
        intro s h1 h2
        exact ih _ (processLine_stack_wf s l h1) (processLine_counts s l h1 h2)
  obtain ⟨hs1, hb1⟩ := key (splitNL (normNL text.data)) initState
    (by simp [initState]) (by simp [initState])
  unfold basicMarkdownToHtmlLines
  dsimp only
  have hfc := flushParagraph_counts ((splitNL (normNL text.data)).foldl processLine initState)
  have hcc := closeLists_counts
    (flushParagraph ((splitNL (normNL text.data)).foldl processLine initState))
    (by rw [flushParagraph_listStack]; exact hs1)
  have hin : (closeLists (flushParagraph
      ((splitNL (normNL text.data)).foldl processLine initState))).inCode =
      ((splitNL (normNL text.data)).foldl processLine initState).inCode := by
    rw [closeLists_inCode, flushParagraph_inCode]
  split
  · rename_i hcode
    rw [hin] at hcode
    rw [hcode] at hb1
    simp at hb1
    simp +decide [List.countP_append, List.countP_cons]
    rw [hcc.1, hfc.1, hcc.2, hfc.2]
    omega
  · rename_i hcode
    rw [hin] at hcode
    rw [Bool.not_eq_true] at hcode
    rw [hcode] at hb1
    simp at hb1
    rw [hcc.1, hfc.1, hcc.2, hfc.2]
    omega

/-!
Claim C1: rendering of a link construct by the inline processor.
-/

theorem codeSpanSub_id (cnt : Nat) (ph : List (List Char × List Char)) (l : List Char)
    (h : ∀ x ∈ l, x ≠ tick) : codeSpanSub cnt ph l = (l, cnt, ph) := by
  induction l with
  | nil => simp [codeSpanSub]
  | cons c rest ih =>
      rw [codeSpanSub]
      rw [if_neg (h c (by simp))]
      rw [ih (fun x hx => h x (List.mem_cons_of_mem _ hx))]

theorem linkSub_id (cnt : Nat) (ph : List (List Char × List Char)) (l : List Char)
    (h : '[' ∉ l) : linkSub cnt ph l = (l, cnt, ph) := by
  induction l with
  | nil => simp [linkSub]
  | cons c rest ih =>
      rw [linkSub]
      rw [if_neg (by intro hh; subst hh; exact h (List.mem_cons_self _ _))]
      rw [ih (fun hx => h (List.mem_cons_of_mem _ hx))]

theorem strongSub_id (d : Char) (l : List Char) :
    (∀ x ∈ l, x ≠ d) → strongSub d l = l := by
  induction l using strongSub.induct d with
  | case1 c1 c2 rest hd head tail x xs htw hdw ih =>
      exact fun h => absurd hd.1 (h c1 (by simp))
  | case2 c1 c2 rest hd head e2 tail x xs hdw htw hne ih =>
      exact fun h => absurd hd.1 (h c1 (by simp))
  | case3 c1 c2 rest hd hcon ih =>
      exact fun h => absurd hd.1 (h c1 (by simp))
  | case4 c1 c2 rest hd ih =>
      intro h
      rw [strongSub]
      rw [if_neg hd]
      rw [ih (fun x hx => h x (List.mem_cons_of_mem _ hx))]
  | case5 l hnc =>
      intro h
      have hsh : l = [] ∨ ∃ a, l = [a] := by
        cases l with
        | nil => exact Or.inl rfl
        | cons a t =>
            cases t with
            | nil => exact Or.inr ⟨a, rfl⟩
            | cons b t2 => exact absurd rfl (hnc a b t2)
      rcases hsh with rfl | ⟨a, rfl⟩ <;> simp [strongSub]

theorem emSub_id (d : Char) (prev : Option Char) (l : List Char) :
    (∀ x ∈ l, x ≠ d) → emSub d prev l = l := by
  induction prev, l using emSub.induct d with
  | case1 prev => exact fun _ => by simp [emSub]
  | case2 prev c rest hd head tail x xs hdw htw hne ih =>
      exact fun h => absurd hd.1 (h c (by simp))
  | case3 prev c rest hd head tail x xs hdw htw hne ih =>
      exact fun h => absurd hd.1 (h c (by simp))
  | case4 prev c rest hd hcon ih =>
      exact fun h => absurd hd.1 (h c (by simp))
  | case5 prev c rest hd ih =>
      intro h
      rw [emSub]
      rw [if_neg hd]
      rw [ih (fun x hx => h x (List.mem_cons_of_mem _ hx))]

theorem replaceList_nil (pat repl : List Char) : replaceList pat repl [] = [] := by
  simp [replaceList]

theorem replaceList_append_pat (pat repl rest : List Char) (h : pat ≠ []) :
    replaceList pat repl (pat ++ rest) = repl ++ replaceList pat repl rest := by
  cases pat with
  | nil => exact absurd rfl h
  | cons p ps =>
      rw [List.cons_append, replaceList]
      rw [dif_pos ⟨List.cons_ne_nil _ _,
        List.isPrefixOf_iff_prefix.mpr (by exact List.prefix_append (p :: ps) rest)⟩]
      have hd : List.drop (p :: ps).length (p :: (ps ++ rest)) = rest :=
        List.drop_left (p :: ps) rest
      rw [hd]

theorem replaceList_no_head (p : Char) (ps repl : List Char) (l : List Char) (h : p ∉ l) :
    replaceList (p :: ps) repl l = l := by
  induction l with
  | nil => exact replaceList_nil _ _
  | cons c rest ih =>
      rw [replaceList]
      rw [dif_neg (by
        intro hcon
        exact h (head_mem_of_isPrefixOf hcon.2))]
      rw [ih (fun hx => h (List.mem_cons_of_mem _ hx))]

theorem htmlEscape_no_at (q : Bool) (l : List Char) (h : '@' ∉ l) : '@' ∉ htmlEscape q l := by
  induction l with
  | nil => simp [htmlEscape]
  | cons c rest ih =>
      intro hx
      rcases List.mem_append.mp hx with hm | hm
      · unfold escChar at hm
        repeat' split at hm
        all_goals simp_all
      · exact ih (fun hy => h (List.mem_cons_of_mem _ hy)) hm

theorem linkSub_link (cnt : Nat) (ph : List (List Char × List Char)) (label url : List Char)
    (hl : label ≠ []) (hu : url ≠ []) (hlb : ']' ∉ label) (hub : ')' ∉ url) :
    linkSub cnt ph ('[' :: (label ++ ']' :: '(' :: (url ++ [')']))) =
      (mkToken cnt, cnt + 1, ph ++ [(mkToken cnt,
        "<a href=\"".data ++ htmlEscape true url ++ "\">".data ++
        htmlEscape true label ++ "</a>".data)]) := by
  have hdw : (label ++ ']' :: '(' :: (url ++ [')'])).dropWhile (fun x => x ≠ ']') =
      ']' :: '(' :: (url ++ [')']) :=
    dropWhile_append_stop
      (fun a ha => by simp; exact fun he => hlb (he ▸ ha)) (by simp)
  have htw : (label ++ ']' :: '(' :: (url ++ [')'])).takeWhile (fun x => x ≠ ']') = label :=
    takeWhile_append_stop
      (fun a ha => by simp; exact fun he => hlb (he ▸ ha)) (by simp)
  have hdw2 : (url ++ [')']).dropWhile (fun x => x ≠ ')') = [')'] :=
    dropWhile_append_stop
      (fun a ha => by simp; exact fun he => hub (he ▸ ha)) (by simp)
  have htw2 : (url ++ [')']).takeWhile (fun x => x ≠ ')') = url :=
    takeWhile_append_stop
      (fun a ha => by simp; exact fun he => hub (he ▸ ha)) (by simp)
  obtain ⟨lab0, lab1, rfl⟩ : ∃ a t, label = a :: t := by
    cases label with
    | nil => exact absurd rfl hl
    | cons a t => exact ⟨a, t, rfl⟩
  obtain ⟨url0, url1, rfl⟩ : ∃ a t, url = a :: t := by
    cases url with
    | nil => exact absurd rfl hu
    | cons a t => exact ⟨a, t, rfl⟩
  rw [linkSub]
  rw [if_pos rfl]
  split
  · rename_i rest2 la0 la1 h1 h2
    rw [hdw] at h1
    rw [htw] at h2
    injection h1 with e1 h1
    injection h1 with e2 h1
    subst h1
    split
    · rename_i tail ur0 ur1 h3 h4
      rw [hdw2] at h3
      rw [htw2] at h4
      injection h3 with e3 h3
      subst h3
      rw [← h4, ← h2]
      dsimp only
      rw [show linkSub (cnt + 1)
        (ph ++ [(mkToken cnt,
          "<a href=\"".data ++ htmlEscape true (url0 :: url1) ++ "\">".data ++
          htmlEscape true (lab0 :: lab1) ++ "</a>".data)]) [] =
        ([], cnt + 1,
         ph ++ [(mkToken cnt,
          "<a href=\"".data ++ htmlEscape true (url0 :: url1) ++ "\">".data ++
          htmlEscape true (lab0 :: lab1) ++ "</a>".data)]) from by simp [linkSub]]
      simp
    · rename_i hcon
      exact (hcon [] url0 url1 hdw2 htw2).elim
  · rename_i hcon
    exact (hcon (url0 :: url1 ++ [')']) lab0 lab1 hdw htw).elim

theorem no_at_in_anchor (label url : List Char) (hla : '@' ∉ label) (hua : '@' ∉ url) :
    '@' ∉ "<a href=\"".data ++ htmlEscape true url ++ "\">".data ++
      htmlEscape true label ++ "</a>".data := by
  intro hx
  rcases List.mem_append.mp hx with hx | hx
  rcases List.mem_append.mp hx with hx | hx
  rcases List.mem_append.mp hx with hx | hx
  rcases List.mem_append.mp hx with hx | hx
  · exact absurd hx (by decide)
  · exact htmlEscape_no_at true url hua hx
  · exact absurd hx (by decide)
  · exact htmlEscape_no_at true label hla hx
  · exact absurd hx (by decide)

theorem processInline_link (label url : List Char)
    (hl : label ≠ []) (hu : url ≠ [])
    (hlb : ']' ∉ label) (hub : ')' ∉ url)
    (hlt : tick ∉ label) (hut : tick ∉ url)
    (hla : '@' ∉ label) (hua : '@' ∉ url) :
    processInline ('[' :: (label ++ ']' :: '(' :: (url ++ [')']))) =
      "<a href=\"".data ++ htmlEscape true url ++ "\">".data ++
      htmlEscape true label ++ "</a>".data := by
  unfold processInline
  rw [codeSpanSub_id 0 [] _ (by
    intro x hx
    rcases List.mem_cons.mp hx with rfl | hx
    · decide
    rcases List.mem_append.mp hx with h | h
    · exact fun he => hlt (he ▸ h)
    rcases List.mem_cons.mp h with rfl | h
    · decide
    rcases List.mem_cons.mp h with rfl | h
    · decide
    rcases List.mem_append.mp h with h | h
    · exact fun he => hut (he ▸ h)
    · simp at h
      subst h
      decide)]
  dsimp only
  rw [linkSub_link 0 [] label url hl hu hlb hub]
  dsimp only
  rw [show mkToken 0 = "@@MD0@@".data from rfl]
  rw [show htmlEscape false "@@MD0@@".data = "@@MD0@@".data from rfl]
  rw [strongSub_id '*' _ (by decide)]
  rw [strongSub_id '_' _ (by decide)]
  rw [emSub_id '*' none _ (by decide)]
  rw [emSub_id '_' none _ (by decide)]
  unfold restoreAll
  rw [List.nil_append]
  rw [List.foldl_cons, List.foldl_nil]
  dsimp only
  rw [show htmlEscape true "@@MD0@@".data = "@@MD0@@".data from rfl]
  have hrep1 : replaceList "@@MD0@@".data
      ("<a href=\"".data ++ htmlEscape true url ++ "\">".data ++
        htmlEscape true label ++ "</a>".data) "@@MD0@@".data =
      "<a href=\"".data ++ htmlEscape true url ++ "\">".data ++
        htmlEscape true label ++ "</a>".data := by
    have h := replaceList_append_pat "@@MD0@@".data
      ("<a href=\"".data ++ htmlEscape true url ++ "\">".data ++
        htmlEscape true label ++ "</a>".data) [] (by decide)
    simpa [replaceList_nil] using h
  rw [hrep1]
  exact replaceList_no_head '@' "@MD0@@".data _ _ (no_at_in_anchor label url hla hua)

/-- Counterexample to C1 as stated: for the input `[a"b](u)` the visible
label is escaped with `quote=True` (the source calls `html.escape` with
its default), so the quote character becomes `&quot;`, contrary to the
claim that label escaping does not include quote characters. -/
theorem C1_counterexample :
    processInline "[a\"b](u)".data = "<a href=\"u\">a&quot;b</a>".data ∧
    "<a href=\"u\">a&quot;b</a>".data ≠ "<a href=\"u\">a\"b</a>".data := by
  constructor
  · have h := processInline_link ['a', '"', 'b'] ['u'] (by decide) (by decide) (by decide)
      (by decide) (by decide) (by decide) (by decide) (by decide)
    rw [show "[a\"b](u)".data =
      '[' :: (['a', '"', 'b'] ++ ']' :: '(' :: (['u'] ++ [')'])) from rfl]
    rw [h]
    decide
  · decide

/-- C1 (amended): for every link construct `[label](url)` whose label and
url are non-empty, contain no closing delimiter of their own group, no
backtick and no `@`, the inline processor replaces it with an anchor
whose href is the url HTML-entity-escaped including quotes and whose
visible label is the label HTML-entity-escaped, also including quotes;
restoration applies no further escaping to either. -/
theorem C1_link_rendering (label url : List Char)
    (hl : label ≠ []) (hu : url ≠ [])
    (hlb : ']' ∉ label) (hub : ')' ∉ url)
    (hlt : tick ∉ label) (hut : tick ∉ url)
    (hla : '@' ∉ label) (hua : '@' ∉ url) :
    processInline ('[' :: (label ++ ']' :: '(' :: (url ++ [')']))) =
      "<a href=\"".data ++ htmlEscape true url ++ "\">".data ++
      htmlEscape true label ++ "</a>".data :=
  processInline_link label url hl hu hlb hub hlt hut hla hua

/-- Witness for the amended C1 at label `a`, url `b`. -/
theorem C1_link_rendering_witness :
    processInline ('[' :: ("a".data ++ ']' :: '(' :: ("b".data ++ [')']))) =
      "<a href=\"".data ++ htmlEscape true "b".data ++ "\">".data ++
      htmlEscape true "a".data ++ "</a>".data :=
  C1_link_rendering "a".data "b".data (by decide) (by decide) (by decide) (by decide)
    (by decide) (by decide) (by decide) (by decide)

/-!
Claim C8: entity-occurrence counting.  `countOcc` counts the positions
at which a pattern occurs; the lemmas below localise occurrences across
concatenations whose boundary characters cannot appear in the pattern.
-/

theorem isPrefixOf_cons₂ (p c : Char) (ps l : List Char) :
    (p :: ps).isPrefixOf (c :: l) = (p == c && ps.isPrefixOf l) := rfl

theorem isPrefixOf_append_notmem {c : Char} {pat : List Char} (B : List Char)
    (hc : c ∉ pat) : ∀ X : List Char, pat.isPrefixOf (X ++ c :: B) = pat.isPrefixOf X := by
  induction pat with
  | nil =>
      intro X
      simp [List.isPrefixOf]
  | cons p ps ih =>
      intro X
      cases X with
      | nil =>
          simp only [List.nil_append]
          rw [isPrefixOf_cons₂]
          have : (p == c) = false := by
            simp
            exact fun he => hc (he ▸ List.mem_cons_self _ _)
          rw [this]
          rfl
      | cons x X' =>
          rw [List.cons_append, isPrefixOf_cons₂, isPrefixOf_cons₂]
          rw [ih (fun hm => hc (List.mem_cons_of_mem _ hm)) X']

theorem countOcc_nil (pat : List Char) : countOcc pat [] = 0 := rfl

theorem countOcc_cons (pat : List Char) (c : Char) (l : List Char) :
    countOcc pat (c :: l) = (if pat.isPrefixOf (c :: l) then 1 else 0) + countOcc pat l := rfl

theorem countOcc_head_notin {p : Char} {ps A : List Char} (B : List Char)
    (hA : p ∉ A) : countOcc (p :: ps) (A ++ B) = countOcc (p :: ps) B := by
  induction A with
  | nil => rfl
  | cons a A' ih =>
      rw [List.cons_append, countOcc_cons, isPrefixOf_cons₂]
      have : (p == a) = false := by
        simp
        exact fun he => hA (he ▸ List.mem_cons_self _ _)
      rw [this]
      simp only [Bool.false_and, if_neg (by simp : ¬(false = true))]
      rw [ih (fun hm => hA (List.mem_cons_of_mem _ hm))]
      omega

theorem countOcc_append_sep {c : Char} {pat : List Char} (A B : List Char)
    (hc : c ∉ pat) (hne : pat ≠ []) :
    countOcc pat (A ++ c :: B) = countOcc pat A + countOcc pat B := by
  obtain ⟨p, ps, rfl⟩ : ∃ p ps, pat = p :: ps := by
    cases pat with
    | nil => exact absurd rfl hne
    | cons p ps => exact ⟨p, ps, rfl⟩
  induction A with
  | nil =>
      rw [List.nil_append, countOcc_cons, isPrefixOf_cons₂]
      have : (p == c) = false := by
        simp
        exact fun he => hc (he ▸ List.mem_cons_self _ _)
      rw [this]
      simp [countOcc_nil]
  | cons a A' ih =>
      rw [List.cons_append, countOcc_cons, countOcc_cons]
      have hpre : (p :: ps).isPrefixOf (a :: (A' ++ c :: B)) =
          (p :: ps).isPrefixOf (a :: A') :=
        isPrefixOf_append_notmem B hc (a :: A')
      rw [hpre, ih]
      omega

theorem dropWhile_eq_cons_head {p : Char → Bool} {l t : List Char} {c : Char}
    (h : l.dropWhile p = c :: t) : p c = false := by
  induction l with
  | nil => simp [List.dropWhile] at h
  | cons a l' ih =>
      rw [List.dropWhile_cons] at h
      by_cases ha : p a = true
      · rw [if_pos ha] at h
        exact ih h
      · rw [if_neg ha] at h
        injection h with h1 h2
        rw [← h1]
        exact Bool.not_eq_true _ |>.mp ha

theorem countOcc_lt_amp (R : List Char) :
    countOcc "&lt;".data ("&amp;".data ++ R) = countOcc "&lt;".data R := by
  rw [show "&amp;".data ++ R = '&' :: ("amp;".data ++ R) from rfl]
  rw [countOcc_cons]
  have hp : "&lt;".data.isPrefixOf ('&' :: ("amp;".data ++ R)) = false := by
    simp [List.isPrefixOf]
  rw [hp]
  have h2 : countOcc "&lt;".data ("amp;".data ++ R) = countOcc "&lt;".data R :=
    countOcc_head_notin R (by decide)
  rw [h2]
  simp

theorem countOcc_lt_gt (R : List Char) :
    countOcc "&lt;".data ("&gt;".data ++ R) = countOcc "&lt;".data R := by
  rw [show "&gt;".data ++ R = '&' :: ("gt;".data ++ R) from rfl]
  rw [countOcc_cons]
  have hp : "&lt;".data.isPrefixOf ('&' :: ("gt;".data ++ R)) = false := by
    simp [List.isPrefixOf]
  rw [hp]
  have h2 : countOcc "&lt;".data ("gt;".data ++ R) = countOcc "&lt;".data R :=
    countOcc_head_notin R (by decide)
  rw [h2]
  simp

theorem countOcc_lt_lt (R : List Char) :
    countOcc "&lt;".data ("&lt;".data ++ R) = 1 + countOcc "&lt;".data R := by
  rw [show "&lt;".data ++ R = '&' :: ("lt;".data ++ R) from rfl]
  rw [countOcc_cons]
  have hp : "&lt;".data.isPrefixOf ('&' :: ("lt;".data ++ R)) = true := by
    exact List.isPrefixOf_iff_prefix.mpr (List.prefix_append "&lt;".data R)
  rw [hp]
  have h2 : countOcc "&lt;".data ("lt;".data ++ R) = countOcc "&lt;".data R :=
    countOcc_head_notin R (by decide)
  rw [h2]
  simp

theorem countOcc_lt_other (c : Char) (R : List Char) (hc : c ≠ '&') :
    countOcc "&lt;".data (c :: R) = countOcc "&lt;".data R := by
  rw [countOcc_cons]
  have hp : "&lt;".data.isPrefixOf (c :: R) = false := by
    rw [show "&lt;".data = '&' :: "lt;".data from rfl, isPrefixOf_cons₂]
    have : ('&' == c) = false := by
      simp
      exact fun he => hc he.symm
    rw [this, Bool.false_and]
  rw [hp]
  simp

theorem countOcc_amp_amp (R : List Char) :
    countOcc "&amp;".data ("&amp;".data ++ R) = 1 + countOcc "&amp;".data R := by
  rw [show "&amp;".data ++ R = '&' :: ("amp;".data ++ R) from rfl]
  rw [countOcc_cons]
  have hp : "&amp;".data.isPrefixOf ('&' :: ("amp;".data ++ R)) = true := by
    exact List.isPrefixOf_iff_prefix.mpr (List.prefix_append "&amp;".data R)
  rw [hp]
  have h2 : countOcc "&amp;".data ("amp;".data ++ R) = countOcc "&amp;".data R :=
    countOcc_head_notin R (by decide)
  rw [h2]
  simp

theorem countOcc_amp_lt (R : List Char) :
    countOcc "&amp;".data ("&lt;".data ++ R) = countOcc "&amp;".data R := by
  rw [show "&lt;".data ++ R = '&' :: ("lt;".data ++ R) from rfl]
  rw [countOcc_cons]
  have hp : "&amp;".data.isPrefixOf ('&' :: ("lt;".data ++ R)) = false := by
    simp [List.isPrefixOf]
  rw [hp]
  have h2 : countOcc "&amp;".data ("lt;".data ++ R) = countOcc "&amp;".data R :=
    countOcc_head_notin R (by decide)
  rw [h2]
  simp

theorem countOcc_amp_gt (R : List Char) :
    countOcc "&amp;".data ("&gt;".data ++ R) = countOcc "&amp;".data R := by
  rw [show "&gt;".data ++ R = '&' :: ("gt;".data ++ R) from rfl]
  rw [countOcc_cons]
  have hp : "&amp;".data.isPrefixOf ('&' :: ("gt;".data ++ R)) = false := by
    simp [List.isPrefixOf]
  rw [hp]
  have h2 : countOcc "&amp;".data ("gt;".data ++ R) = countOcc "&amp;".data R :=
    countOcc_head_notin R (by decide)
  rw [h2]
  simp

theorem countOcc_amp_other (c : Char) (R : List Char) (hc : c ≠ '&') :
    countOcc "&amp;".data (c :: R) = countOcc "&amp;".data R := by
  rw [countOcc_cons]
  have hp : "&amp;".data.isPrefixOf (c :: R) = false := by
    rw [show "&amp;".data = '&' :: "amp;".data from rfl, isPrefixOf_cons₂]
    have : ('&' == c) = false := by
      simp
      exact fun he => hc he.symm
    rw [this, Bool.false_and]
  rw [hp]
  simp

theorem escape_count_lt (t : List Char) :
    countOcc "&lt;".data (htmlEscape false t) = t.count '<' := by
  induction t with
  | nil => rfl
  | cons c rest ih =>
      rw [show htmlEscape false (c :: rest) = escChar false c ++ htmlEscape false rest from rfl]
      by_cases h1 : c = '&'
      · subst h1
        rw [show escChar false '&' = "&amp;".data from rfl]
        rw [countOcc_lt_amp, ih, List.count_cons]
        simp
      by_cases h2 : c = '<'
      · subst h2
        rw [show escChar false '<' = "&lt;".data from rfl]
        rw [countOcc_lt_lt, ih, List.count_cons]
        simp [Nat.add_comm]
      by_cases h3 : c = '>'
      · subst h3
        rw [show escChar false '>' = "&gt;".data from rfl]
        rw [countOcc_lt_gt, ih, List.count_cons]
        simp
      · rw [show escChar false c = [c] from by simp [escChar, h1, h2, h3]]
        rw [List.singleton_append]
        rw [countOcc_lt_other c _ h1, ih, List.count_cons]
        simp [h2]

theorem escape_count_amp (t : List Char) :
    countOcc "&amp;".data (htmlEscape false t) = t.count '&' := by
  induction t with
  | nil => rfl
  | cons c rest ih =>
      rw [show htmlEscape false (c :: rest) = escChar false c ++ htmlEscape false rest from rfl]
      by_cases h1 : c = '&'
      · subst h1
        rw [show escChar false '&' = "&amp;".data from rfl]
        rw [countOcc_amp_amp, ih, List.count_cons]
        simp [Nat.add_comm]
      by_cases h2 : c = '<'
      · subst h2
        rw [show escChar false '<' = "&lt;".data from rfl]
        rw [countOcc_amp_lt, ih, List.count_cons]
        simp [h1]
      by_cases h3 : c = '>'
      · subst h3
        rw [show escChar false '>' = "&gt;".data from rfl]
        rw [countOcc_amp_gt, ih, List.count_cons]
        simp [h1]
      · rw [show escChar false c = [c] from by simp [escChar, h1, h2, h3]]
        rw [List.singleton_append]
        rw [countOcc_amp_other c _ h1, ih, List.count_cons]
        simp [h1]

theorem isPrefixOf_cons_ne {q c : Char} (qs B : List Char) (h : q ≠ c) :
    (q :: qs).isPrefixOf (c :: B) = false := by
  rw [isPrefixOf_cons₂]
  have hqc : (q == c) = false := by
    simp
    exact h
  rw [hqc, Bool.false_and]

theorem countOcc_cons_ne {p : Char} (ps : List Char) (c : Char) (B : List Char)
    (hc : c ≠ p) :
    countOcc (p :: ps) (c :: B) = countOcc (p :: ps) B := by
  rw [countOcc_cons, isPrefixOf_cons_ne ps B (fun he => hc he.symm)]
  simp

theorem strongSub_succ (d head : Char) (rest tail : List Char) (x : Char) (xs : List Char)
    (htw : rest.takeWhile (fun c => c ≠ d) = x :: xs)
    (hdw : rest.dropWhile (fun c => c ≠ d) = head :: d :: tail) :
    strongSub d (d :: d :: rest) =
      "<strong>".data ++ (x :: xs) ++ "</strong>".data ++ strongSub d tail := by
  rw [strongSub]
  rw [if_pos ⟨rfl, rfl⟩]
  split
  · rename_i head2 e2 tail2 x2 xs2 heq1 heq2
    rw [hdw] at heq1
    rw [htw] at heq2
    injection heq1 with g1 g2
    injection g2 with g3 g4
    injection heq2 with g5 g6
    subst g3
    subst g4
    subst g5
    subst g6
    rw [if_pos rfl]
  · rename_i hcon
    exact (hcon head d tail x xs hdw htw).elim

theorem strongSub_fail2 (d head e2 : Char) (rest tail : List Char) (x : Char) (xs : List Char)
    (hdw : rest.dropWhile (fun c => c ≠ d) = head :: e2 :: tail)
    (htw : rest.takeWhile (fun c => c ≠ d) = x :: xs)
    (hne : e2 ≠ d) :
    strongSub d (d :: d :: rest) = d :: strongSub d (d :: rest) := by
  rw [strongSub]
  rw [if_pos ⟨rfl, rfl⟩]
  split
  · rename_i head2 e22 tail2 x2 xs2 heq1 heq2
    rw [hdw] at heq1
    injection heq1 with g1 g2
    injection g2 with g3 g4
    subst g3
    rw [if_neg hne]
  · rfl

theorem strongSub_fail3 (d : Char) (rest : List Char)
    (hcon : ∀ (head e2 : Char) (tail : List Char) (x : Char) (xs : List Char),
        rest.dropWhile (fun c => c ≠ d) = head :: e2 :: tail →
          rest.takeWhile (fun c => c ≠ d) = x :: xs → False) :
    strongSub d (d :: d :: rest) = d :: strongSub d (d :: rest) := by
  rw [strongSub]
  rw [if_pos ⟨rfl, rfl⟩]
  split
  · rename_i head2 e22 tail2 x2 xs2 heq1 heq2
    exact (hcon head2 e22 tail2 x2 xs2 heq1 heq2).elim
  · rfl

theorem strongSub_fail4 (d c1 c2 : Char) (rest : List Char)
    (hne : ¬(c1 = d ∧ c2 = d)) :
    strongSub d (c1 :: c2 :: rest) = c1 :: strongSub d (c2 :: rest) := by
  rw [strongSub]
  rw [if_neg hne]

theorem strongSub_short (d : Char) (l : List Char)
    (h : ∀ (c1 c2 : Char) (rest : List Char), l = c1 :: c2 :: rest → False) :
    strongSub d l = l := by
  cases l with
  | nil => simp [strongSub]
  | cons a t =>
      cases t with
      | nil => simp [strongSub]
      | cons b t2 => exact (h a b t2 rfl).elim

theorem strongSub_isPrefixOf (d : Char) (l : List Char) :
    ∀ qs : List Char, d ∉ qs → '<' ∉ qs →
      qs.isPrefixOf (strongSub d l) = qs.isPrefixOf l := by
  induction l using strongSub.induct d with
  | case1 c1 c2 rest hd head tail x xs htw hdw ih =>
      intro qs hdq hlq
      obtain ⟨g1, g2⟩ := hd
      rw [g1, g2]
      rw [strongSub_succ d head rest tail x xs htw hdw]
      cases qs with
      | nil => rfl
      | cons q qs2 =>
          rw [List.append_assoc, List.append_assoc]
          rw [show ("<strong>".data ++
              ((x :: xs) ++ ("</strong>".data ++ strongSub d tail))) =
              '<' :: ("strong>".data ++
              ((x :: xs) ++ ("</strong>".data ++ strongSub d tail))) from rfl]
          rw [isPrefixOf_cons_ne qs2 _
            (by intro he; subst he; exact hlq (List.mem_cons_self _ _))]
          rw [isPrefixOf_cons_ne qs2 _
            (by intro he; subst he; exact hdq (List.mem_cons_self _ _))]
  | case2 c1 c2 rest hd head e2 tail x xs hdw htw hne ih =>
      intro qs hdq hlq
      obtain ⟨g1, g2⟩ := hd
      rw [g2] at ih
      rw [g1, g2]
      rw [strongSub_fail2 d head e2 rest tail x xs hdw htw hne]
      cases qs with
      | nil => rfl
      | cons q qs2 =>
          rw [isPrefixOf_cons₂, isPrefixOf_cons₂]
          rw [ih qs2 (fun hm => hdq (List.mem_cons_of_mem _ hm))
            (fun hm => hlq (List.mem_cons_of_mem _ hm))]
  | case3 c1 c2 rest hd hcon ih =>
      intro qs hdq hlq
      obtain ⟨g1, g2⟩ := hd
      rw [g2] at ih
      rw [g1, g2]
      rw [strongSub_fail3 d rest hcon]
      cases qs with
      | nil => rfl
      | cons q qs2 =>
          rw [isPrefixOf_cons₂, isPrefixOf_cons₂]
          rw [ih qs2 (fun hm => hdq (List.mem_cons_of_mem _ hm))
            (fun hm => hlq (List.mem_cons_of_mem _ hm))]
  | case4 c1 c2 rest hd ih =>
      intro qs hdq hlq
      rw [strongSub_fail4 d c1 c2 rest hd]
      cases qs with
      | nil => rfl
      | cons q qs2 =>
          rw [isPrefixOf_cons₂, isPrefixOf_cons₂]
          rw [ih qs2 (fun hm => hdq (List.mem_cons_of_mem _ hm))
            (fun hm => hlq (List.mem_cons_of_mem _ hm))]
  | case5 l hnc =>
      intro qs hdq hlq
      rw [strongSub_short d l hnc]

theorem strongSub_countOcc (d p : Char) (ps : List Char)
    (hd : d ∉ p :: ps) (hlt : '<' ∉ p :: ps)
    (hs1 : p ∉ "strong>".data) (hs2 : p ∉ "/strong>".data)
    (l : List Char) :
    countOcc (p :: ps) (strongSub d l) = countOcc (p :: ps) l := by
  have hdne : d ≠ p := fun he => hd (by rw [he]; exact List.mem_cons_self _ _)
  have hltne : ('<' : Char) ≠ p := fun he => hlt (by rw [he]; exact List.mem_cons_self _ _)
  have hdps : d ∉ ps := fun hm => hd (List.mem_cons_of_mem _ hm)
  have hlps : '<' ∉ ps := fun hm => hlt (List.mem_cons_of_mem _ hm)
  induction l using strongSub.induct d with
  | case1 c1 c2 rest hd2 head tail x xs htw hdw ih =>
      obtain ⟨g1, g2⟩ := hd2
      rw [g1, g2]
      rw [strongSub_succ d head rest tail x xs htw hdw]
      rw [List.append_assoc, List.append_assoc]
      rw [show ("<strong>".data ++
          ((x :: xs) ++ ("</strong>".data ++ strongSub d tail))) =
          '<' :: ("strong>".data ++
          ((x :: xs) ++ ("</strong>".data ++ strongSub d tail))) from rfl]
      rw [countOcc_cons_ne ps '<' _ hltne]
      rw [countOcc_head_notin _ hs1]
      rw [show ("</strong>".data ++ strongSub d tail) =
          '<' :: ("/strong>".data ++ strongSub d tail) from rfl]
      rw [countOcc_append_sep _ _ hlt (List.cons_ne_nil p ps)]
      rw [countOcc_head_notin _ hs2]
      rw [ih]
      have h3 := dropWhile_eq_cons_head hdw
      simp at h3
      have hre : rest = rest.takeWhile (fun c => c ≠ d) ++
          rest.dropWhile (fun c => c ≠ d) :=
        (List.takeWhile_append_dropWhile _ _).symm
      rw [htw, hdw, h3] at hre
      rw [countOcc_cons_ne ps d _ hdne, countOcc_cons_ne ps d _ hdne]
      rw [hre]
      rw [countOcc_append_sep _ _ hd (List.cons_ne_nil p ps)]
      rw [countOcc_cons_ne ps d _ hdne]
  | case2 c1 c2 rest hd2 head e2 tail x xs hdw htw hne ih =>
      obtain ⟨g1, g2⟩ := hd2
      rw [g2] at ih
      rw [g1, g2]
      rw [strongSub_fail2 d head e2 rest tail x xs hdw htw hne]
      rw [countOcc_cons, countOcc_cons]
      rw [isPrefixOf_cons₂, isPrefixOf_cons₂]
      rw [strongSub_isPrefixOf d (d :: rest) ps hdps hlps]
      rw [ih]
  | case3 c1 c2 rest hd2 hcon ih =>
      obtain ⟨g1, g2⟩ := hd2
      rw [g2] at ih
      rw [g1, g2]
      rw [strongSub_fail3 d rest hcon]
      rw [countOcc_cons, countOcc_cons]
      rw [isPrefixOf_cons₂, isPrefixOf_cons₂]
      rw [strongSub_isPrefixOf d (d :: rest) ps hdps hlps]
      rw [ih]
  | case4 c1 c2 rest hd2 ih =>
      rw [strongSub_fail4 d c1 c2 rest hd2]
      rw [countOcc_cons, countOcc_cons]
      rw [isPrefixOf_cons₂, isPrefixOf_cons₂]
      rw [strongSub_isPrefixOf d (c2 :: rest) ps hdps hlps]
      rw [ih]
  | case5 l hnc =>
      rw [strongSub_short d l hnc]

theorem emSub_nil (d : Char) (prev : Option Char) : emSub d prev [] = [] := by
  simp [emSub]

theorem emSub_succ (d head : Char) (prev : Option Char) (rest tail : List Char)
    (x : Char) (xs : List Char)
    (hp : prev ≠ some d)
    (hdw : rest.dropWhile (fun c => c ≠ d) = head :: tail)
    (htw : rest.takeWhile (fun c => c ≠ d) = x :: xs)
    (hh : tail.head? ≠ some d) :
    emSub d prev (d :: rest) =
      "<em>".data ++ (x :: xs) ++ "</em>".data ++ emSub d (some d) tail := by
  rw [emSub]
  rw [if_pos ⟨rfl, hp⟩]
  split
  · rename_i head2 tail2 x2 xs2 heq1 heq2
    rw [hdw] at heq1
    rw [htw] at heq2
    injection heq1 with g1 g2
    injection heq2 with g5 g6
    subst g2
    subst g5
    subst g6
    rw [if_pos hh]
  · rename_i hcon
    exact (hcon head tail x xs hdw htw).elim

theorem emSub_fail3 (d head : Char) (prev : Option Char) (rest tail : List Char)
    (x : Char) (xs : List Char)
    (hp : prev ≠ some d)
    (hdw : rest.dropWhile (fun c => c ≠ d) = head :: tail)
    (htw : rest.takeWhile (fun c => c ≠ d) = x :: xs)
    (hh : ¬tail.head? ≠ some d) :
    emSub d prev (d :: rest) = d :: emSub d (some d) rest := by
  rw [emSub]
  rw [if_pos ⟨rfl, hp⟩]
  split
  · rename_i head2 tail2 x2 xs2 heq1 heq2
    rw [hdw] at heq1
    injection heq1 with g1 g2
    subst g2
    rw [if_neg hh]
  · rfl

theorem emSub_fail4 (d : Char) (prev : Option Char) (rest : List Char)
    (hp : prev ≠ some d)
    (hcon : ∀ (head : Char) (tail : List Char) (x : Char) (xs : List Char),
        rest.dropWhile (fun c => c ≠ d) = head :: tail →
          rest.takeWhile (fun c => c ≠ d) = x :: xs → False) :
    emSub d prev (d :: rest) = d :: emSub d (some d) rest := by
  rw [emSub]
  rw [if_pos ⟨rfl, hp⟩]
  split
  · rename_i head2 tail2 x2 xs2 heq1 heq2
    exact (hcon head2 tail2 x2 xs2 heq1 heq2).elim
  · rfl

theorem emSub_fail5 (d c : Char) (prev : Option Char) (rest : List Char)
    (hne : ¬(c = d ∧ prev ≠ some d)) :
    emSub d prev (c :: rest) = c :: emSub d (some c) rest := by
  rw [emSub]
  rw [if_neg hne]

theorem emSub_isPrefixOf (d : Char) (prev : Option Char) (l : List Char) :
    ∀ qs : List Char, d ∉ qs → '<' ∉ qs →
      qs.isPrefixOf (emSub d prev l) = qs.isPrefixOf l := by
  induction prev, l using emSub.induct d with
  | case1 prev =>
      intro qs hdq hlq
      rw [emSub_nil d prev]
  | case2 prev c rest hd head tail x xs hdw htw hne ih =>
      intro qs hdq hlq
      obtain ⟨g1, g2⟩ := hd
      rw [g1]
      rw [emSub_succ d head prev rest tail x xs g2 hdw htw hne]
      cases qs with
      | nil => rfl
      | cons q qs2 =>
          rw [List.append_assoc, List.append_assoc]
          rw [show ("<em>".data ++
              ((x :: xs) ++ ("</em>".data ++ emSub d (some d) tail))) =
              '<' :: ("em>".data ++
              ((x :: xs) ++ ("</em>".data ++ emSub d (some d) tail))) from rfl]
          rw [isPrefixOf_cons_ne qs2 _
            (by intro he; subst he; exact hlq (List.mem_cons_self _ _))]
          rw [isPrefixOf_cons_ne qs2 _
            (by intro he; subst he; exact hdq (List.mem_cons_self _ _))]
  | case3 prev c rest hd head tail x xs hdw htw hne ih =>
      intro qs hdq hlq
      obtain ⟨g1, g2⟩ := hd
      rw [g1] at ih
      rw [g1]
      rw [emSub_fail3 d head prev rest tail x xs g2 hdw htw hne]
      cases qs with
      | nil => rfl
      | cons q qs2 =>
          rw [isPrefixOf_cons₂, isPrefixOf_cons₂]
          rw [ih qs2 (fun hm => hdq (List.mem_cons_of_mem _ hm))
            (fun hm => hlq (List.mem_cons_of_mem _ hm))]
  | case4 prev c rest hd hcon ih =>
      intro qs hdq hlq
      obtain ⟨g1, g2⟩ := hd
      rw [g1] at ih
      rw [g1]
      rw [emSub_fail4 d prev rest g2 hcon]
      cases qs with
      | nil => rfl
      | cons q qs2 =>
          rw [isPrefixOf_cons₂, isPrefixOf_cons₂]
          rw [ih qs2 (fun hm => hdq (List.mem_cons_of_mem _ hm))
            (fun hm => hlq (List.mem_cons_of_mem _ hm))]
  | case5 prev c rest hd ih =>
      intro qs hdq hlq
      rw [emSub_fail5 d c prev rest hd]
      cases qs with
      | nil => rfl
      | cons q qs2 =>
          rw [isPrefixOf_cons₂, isPrefixOf_cons₂]
          rw [ih qs2 (fun hm => hdq (List.mem_cons_of_mem _ hm))
            (fun hm => hlq (List.mem_cons_of_mem _ hm))]

theorem emSub_countOcc (d p : Char) (ps : List Char)
    (hd : d ∉ p :: ps) (hlt : '<' ∉ p :: ps)
    (hs1 : p ∉ "em>".data) (hs2 : p ∉ "/em>".data)
    (prev : Option Char) (l : List Char) :
    countOcc (p :: ps) (emSub d prev l) = countOcc (p :: ps) l := by
  have hdne : d ≠ p := fun he => hd (by rw [he]; exact List.mem_cons_self _ _)
  have hltne : ('<' : Char) ≠ p := fun he => hlt (by rw [he]; exact List.mem_cons_self _ _)
  have hdps : d ∉ ps := fun hm => hd (List.mem_cons_of_mem _ hm)
  have hlps : '<' ∉ ps := fun hm => hlt (List.mem_cons_of_mem _ hm)
  induction prev, l using emSub.induct d with
  | case1 prev =>
      rw [emSub_nil d prev]
  | case2 prev c rest hd2 head tail x xs hdw htw hne ih =>
      obtain ⟨g1, g2⟩ := hd2
      rw [g1]
      rw [emSub_succ d head prev rest tail x xs g2 hdw htw hne]
      rw [List.append_assoc, List.append_assoc]
      rw [show ("<em>".data ++
          ((x :: xs) ++ ("</em>".data ++ emSub d (some d) tail))) =
          '<' :: ("em>".data ++
          ((x :: xs) ++ ("</em>".data ++ emSub d (some d) tail))) from rfl]
      rw [countOcc_cons_ne ps '<' _ hltne]
      rw [countOcc_head_notin _ hs1]
      rw [show ("</em>".data ++ emSub d (some d) tail) =
          '<' :: ("/em>".data ++ emSub d (some d) tail) from rfl]
      rw [countOcc_append_sep _ _ hlt (List.cons_ne_nil p ps)]
      rw [countOcc_head_notin _ hs2]
      rw [ih]
      have h3 := dropWhile_eq_cons_head hdw
      simp at h3
      have hre : rest = rest.takeWhile (fun c => c ≠ d) ++
          rest.dropWhile (fun c => c ≠ d) :=
        (List.takeWhile_append_dropWhile _ _).symm
      rw [htw, hdw, h3] at hre
      rw [countOcc_cons_ne ps d _ hdne]
      rw [hre]
      rw [countOcc_append_sep _ _ hd (List.cons_ne_nil p ps)]
  | case3 prev c rest hd2 head tail x xs hdw htw hne ih =>
      obtain ⟨g1, g2⟩ := hd2
      rw [g1] at ih
      rw [g1]
      rw [emSub_fail3 d head prev rest tail x xs g2 hdw htw hne]
      rw [countOcc_cons, countOcc_cons]
      rw [isPrefixOf_cons₂, isPrefixOf_cons₂]
      rw [emSub_isPrefixOf d (some d) rest ps hdps hlps]
      rw [ih]
  | case4 prev c rest hd2 hcon ih =>
      obtain ⟨g1, g2⟩ := hd2
      rw [g1] at ih
      rw [g1]
      rw [emSub_fail4 d prev rest g2 hcon]
      rw [countOcc_cons, countOcc_cons]
      rw [isPrefixOf_cons₂, isPrefixOf_cons₂]
      rw [emSub_isPrefixOf d (some d) rest ps hdps hlps]
      rw [ih]
  | case5 prev c rest hd2 ih =>
      rw [emSub_fail5 d c prev rest hd2]
      rw [countOcc_cons, countOcc_cons]
      rw [isPrefixOf_cons₂, isPrefixOf_cons₂]
      rw [emSub_isPrefixOf d (some c) rest ps hdps hlps]
      rw [ih]

/-- C8: for a paragraph text with no backtick and no `[` (so every literal
`<` and `&` lies outside code spans and links), each such character comes
out of `_process_inline` exactly once in entity form: the output contains
exactly as many occurrences of `&lt;` as the text has literal `<`
characters, and exactly as many occurrences of `&amp;` as the text has
literal `&` characters — never unescaped, never double-escaped — and this
is preserved by all four emphasis passes and by placeholder restoration. -/
theorem C8_escape_exactly_once (t : List Char)
    (ht : tick ∉ t) (hb : '[' ∉ t) :
    countOcc "&lt;".data (processInline t) = t.count '<' ∧
    countOcc "&amp;".data (processInline t) = t.count '&' := by
  unfold processInline
  rw [codeSpanSub_id 0 [] t (fun x hx he => ht (he ▸ hx))]
  dsimp only
  rw [linkSub_id 0 [] t hb]
  dsimp only
  unfold restoreAll
  rw [List.foldl_nil]
  constructor
  · rw [emSub_countOcc '_' '&' ['l', 't', ';'] (by decide) (by decide) (by decide) (by decide)]
    rw [emSub_countOcc '*' '&' ['l', 't', ';'] (by decide) (by decide) (by decide) (by decide)]
    rw [strongSub_countOcc '_' '&' ['l', 't', ';'] (by decide) (by decide) (by decide) (by decide)]
    rw [strongSub_countOcc '*' '&' ['l', 't', ';'] (by decide) (by decide) (by decide) (by decide)]
    exact escape_count_lt t
  · rw [emSub_countOcc '_' '&' ['a', 'm', 'p', ';'] (by decide) (by decide) (by decide) (by decide)]
    rw [emSub_countOcc '*' '&' ['a', 'm', 'p', ';'] (by decide) (by decide) (by decide) (by decide)]
    rw [strongSub_countOcc '_' '&' ['a', 'm', 'p', ';'] (by decide) (by decide) (by decide) (by decide)]
    rw [strongSub_countOcc '*' '&' ['a', 'm', 'p', ';'] (by decide) (by decide) (by decide) (by decide)]
    exact escape_count_amp t

/-- Witness for C8 at the text `a<b & *c*`, which contains one literal `<`,
one literal `&`, and an emphasis span. -/
theorem C8_escape_exactly_once_witness :
    tick ∉ "a<b & *c*".data ∧ '[' ∉ "a<b & *c*".data ∧
    (countOcc "&lt;".data (processInline "a<b & *c*".data) =
      ("a<b & *c*".data).count '<' ∧
     countOcc "&amp;".data (processInline "a<b & *c*".data) =
      ("a<b & *c*".data).count '&') :=
  ⟨by decide, by decide,
    C8_escape_exactly_once "a<b & *c*".data (by decide) (by decide)⟩
